import Mathlib

/-!
# Verification of the markdown-editor text-processing core

A shallow embedding, over `List Char`, of the text-processing layer of the
markdown-editor application: the structural parser (`parseMarkdownStructure`,
`extractSectionContent` from `src/utils/markdownParser.ts`), the token-budget
chunker and relevance ranker (`chunkContent`, `findRelevantChunk`,
`intelligentTruncate` from the content-limits utility module), the diff engine
(`generateDiff`, `generateContextualDiff` from `src/utils/formatPreservation.ts`)
and the selection-offset reconciliation logic of the editor component.

JavaScript strings are modelled as `List Char`; character offsets are list
indices.  All definitions are executable.
-/

/-! ## Character-level primitives -/

/-- The newline character. -/
def nl : Char := '\n'

/-- Opening curly brace (written via a hex escape). -/
def obrace : Char := '\x7b'

/-- Closing curly brace (written via a hex escape). -/
def cbrace : Char := '\x7d'

/-- ASCII letter test, modelling the regex character class `[a-zA-Z]`. -/
def isAsciiLetter (c : Char) : Bool :=
  ('a' ≤ c && c ≤ 'z') || ('A' ≤ c && c ≤ 'Z')

/-- JavaScript whitespace (the `\s` class / `trim` family).  We model the
common members: space, tab, newline, carriage return, vertical tab, form
feed, no-break space and the BOM. -/
def isJsWhitespace (c : Char) : Bool :=
  c = ' ' || c = '\t' || c = '\n' || c = '\r' ||
  c = '\x0b' || c = '\x0c' || c = ' ' || c = '﻿'

/-- Helper for `splitLines`: returns the first line of the input and the list
of remaining lines.  Mirrors JavaScript `String.prototype.split('\n')`, which
always returns at least one (possibly empty) element. -/
def splitLinesAux : List Char → List Char × List (List Char)
  | [] => ([], [])
  | c :: rest =>
    let (l, ls) := splitLinesAux rest
    if c = nl then ([], l :: ls) else (c :: l, ls)

/-- JavaScript `content.split('\n')` over `List Char`.  The result is always
nonempty; splitting the empty string yields `[[]]`. -/
def splitLines (s : List Char) : List (List Char) :=
  let (l, ls) := splitLinesAux s
  l :: ls

/-- Concatenate a list of lines, appending a newline after each line.  This is
the shape in which the parser and the chunker accumulate their buffers
(`line + '\n'` per iteration). -/
def glue (g : List (List Char)) : List Char :=
  (g.map (fun l => l ++ [nl])).flatten

/-- JavaScript `String.prototype.trimEnd`: drop trailing whitespace. -/
def trimEnd (s : List Char) : List Char :=
  (s.reverse.dropWhile isJsWhitespace).reverse

/-- JavaScript `String.prototype.trim`: drop whitespace at both ends. -/
def trimJs (s : List Char) : List Char :=
  trimEnd (s.dropWhile isJsWhitespace)

/-! ### Lemmas about the primitives -/

theorem splitLines_ne_nil (s : List Char) : splitLines s ≠ [] := by
  unfold splitLines
  cases splitLinesAux s with
  | mk l ls => simp

theorem glue_nil : glue [] = [] := rfl

theorem glue_cons (l : List Char) (g : List (List Char)) :
    glue (l :: g) = l ++ [nl] ++ glue g := by
  simp [glue]

theorem glue_append (g₁ g₂ : List (List Char)) :
    glue (g₁ ++ g₂) = glue g₁ ++ glue g₂ := by
  simp [glue]

theorem glue_eq_nil_iff (g : List (List Char)) : glue g = [] ↔ g = [] := by
  cases g with
  | nil => simp [glue]
  | cons l g' => simp [glue_cons]

/-- Splitting and regluing restores the input followed by one extra
newline: every line, including the last one, gets a `'\n'` appended. -/
theorem glue_splitLines (s : List Char) : glue (splitLines s) = s ++ [nl] := by
  induction s with
  | nil => simp [splitLines, splitLinesAux, glue]
  | cons c rest ih =>
    unfold splitLines splitLinesAux
    cases h : splitLinesAux rest with
    | mk l ls =>
      have ih' : glue (l :: ls) = rest ++ [nl] := by
        simpa [splitLines, h] using ih
      by_cases hc : c = nl
      · subst hc
        simp only [if_pos rfl]
        simp only [glue_cons] at ih' ⊢
        simp [glue_cons, ih']
      · simp only [if_neg hc]
        simp only [glue_cons] at ih' ⊢
        simp [glue, List.append_assoc] at ih' ⊢
        simp [ih']

/-- Elements of `glue` applied to a nonempty group are nonempty. -/
theorem glue_ne_nil {g : List (List Char)} (h : g ≠ []) : glue g ≠ [] := by
  intro hg
  exact h ((glue_eq_nil_iff g).mp hg)

/-- `trimEnd` decomposition: the input is the trimmed output followed by a
whitespace-only suffix. -/
theorem trimEnd_decomp (s : List Char) :
    ∃ w, w.all isJsWhitespace = true ∧ trimEnd s ++ w = s := by
  refine ⟨(s.reverse.takeWhile isJsWhitespace).reverse, ?_, ?_⟩
  · rw [List.all_eq_true]
    intro c hc
    rw [List.mem_reverse] at hc
    exact List.mem_takeWhile_imp hc
  · unfold trimEnd
    rw [← List.reverse_append, List.takeWhile_append_dropWhile]
    · exact List.reverse_reverse s

/-- Trimming removes a trailing whitespace character. -/
theorem trimEnd_append_ws (s : List Char) (c : Char) (hc : isJsWhitespace c = true) :
    trimEnd (s ++ [c]) = trimEnd s := by
  unfold trimEnd
  rw [List.reverse_append]
  simp [List.dropWhile, hc]

example : trimEnd ("ab \n".toList) = "ab".toList := by decide
example : splitLines ("a\nb".toList) = ["a".toList, "b".toList] := by decide
example : glue (splitLines "a\nb".toList) = "a\nb\n".toList := by decide

/-! ## Structural parser (`src/utils/markdownParser.ts`) -/

/-- `MarkdownSection` from `markdownParser.ts`.  The TypeScript field `end` is
called `endPos` here (`end` is a Lean keyword); all other names are kept. -/
structure MarkdownSection where
  title : List Char
  command : List Char
  start : Nat
  endPos : Nat
  content : List Char
  level : Int
  lineStart : Nat
  lineEnd : Nat
deriving DecidableEq, Repr, Inhabited

/-- Match the closing part of the heading regex: after `\name{` or `\name*{`
the rest of the line must be `title}` where `title` is nonempty (`.+` is greedy,
so the title runs to the final character of the line, which must be the closing
brace). Returns the title. -/
def matchBody (rest : List Char) : Option (List Char) :=
  if 2 ≤ rest.length && rest.getLast? = some cbrace then some rest.dropLast else none

/-- The heading-line matcher, modelling the anchored regex
`/^\\([a-zA-Z]+)(\*?)\{(.+)\}$/` from `parseMarkdownStructure`.  Returns
`(name, starred, title)` when the whole line has the shape
backslash, one or more letters, optional star, open brace, nonempty title,
close brace at end of line. -/
def matchCommand (line : List Char) : Option (List Char × Bool × List Char) :=
  match line with
  | [] => none
  | c :: rest =>
    if c = '\\' then
      let name := rest.takeWhile isAsciiLetter
      let rest2 := rest.dropWhile isAsciiLetter
      if name.isEmpty then none
      else
        match rest2 with
        | b :: rest3 =>
          if b = '*' then
            match rest3 with
            | b2 :: rest4 =>
              if b2 = obrace then (matchBody rest4).map (fun t => (name, true, t))
              else none
            | [] => none
          else if b = obrace then (matchBody rest3).map (fun t => (name, false, t))
          else none
        | [] => none
    else none

/-- The fixed command-name-to-hierarchy-level table of `parseMarkdownStructure`;
unknown commands get level 99. -/
def commandLevels (name : List Char) : Int :=
  if name = "title".toList then 0
  else if name = "chapter".toList then 1
  else if name = "section".toList then 2
  else if name = "subsection".toList then 3
  else if name = "subsubsection".toList then 4
  else if name = "paragraph".toList then 5
  else if name = "subparagraph".toList then 6
  else 99

/-- The line-scanning loop of `parseMarkdownStructure`, written as structural
recursion over the remaining lines.  `contentLen` is `content.length`,
`totalLines` is `lines.length`, `i` the current line index, `charCount` the
running character offset, `sections` the pushed sections and `cur` the
currently open section (`currentSection` in the source).  Subtractions
(`charCount - 1`, `i - 1`) only occur when a section is open, in which case at
least one line has been consumed, so `Nat` subtraction agrees with the
JavaScript arithmetic. -/
def parseLoop (contentLen totalLines : Nat) :
    List (List Char) → Nat → Nat → List MarkdownSection → Option MarkdownSection →
    List MarkdownSection
  | [], _, _, sections, cur =>
    match cur with
    | none => sections
    | some c => sections ++ [{ c with endPos := contentLen, lineEnd := totalLines - 1 }]
  | line :: rest, i, charCount, sections, cur =>
    match matchCommand line with
    | some (name, starred, ttl) =>
      let closed :=
        match cur with
        | some c => sections ++ [{ c with endPos := charCount - 1, lineEnd := i - 1 }]
        | none => sections
      let fullCommand := name ++ (if starred then ['*'] else [])
      let newCur : MarkdownSection :=
        { title := ttl
          command := fullCommand
          start := charCount
          endPos := contentLen
          content := line ++ [nl]
          level := commandLevels name
          lineStart := i
          lineEnd := totalLines - 1 }
      parseLoop contentLen totalLines rest (i + 1) (charCount + line.length + 1) closed (some newCur)
    | none =>
      match cur with
      | some c =>
        parseLoop contentLen totalLines rest (i + 1) (charCount + line.length + 1) sections
          (some { c with content := c.content ++ line ++ [nl] })
      | none =>
        if sections.length = 0 then
          let pre : MarkdownSection :=
            { title := "Preamble".toList
              command := "preamble".toList
              start := charCount
              endPos := contentLen
              content := line ++ [nl]
              level := -1
              lineStart := i
              lineEnd := totalLines - 1 }
          parseLoop contentLen totalLines rest (i + 1) (charCount + line.length + 1) sections (some pre)
        else
          parseLoop contentLen totalLines rest (i + 1) (charCount + line.length + 1) sections none

/-- `parseMarkdownStructure` from `markdownParser.ts`. -/
def parseMarkdownStructure (content : List Char) : List MarkdownSection :=
  let lines := splitLines content
  parseLoop content.length lines.length lines 0 0 [] none

example :
    (parseMarkdownStructure "\\section{A}\nbody".toList).map
      (fun s => (s.start, s.endPos)) = [(0, 16)] := by decide
example :
    (parseMarkdownStructure "\\section{A}\n\\section{B}".toList).map
      (fun s => (s.start, s.endPos)) = [(0, 11), (12, 23)] := by decide
example : (parseMarkdownStructure "".toList).length = 1 := by decide
example :
    (parseMarkdownStructure "hello\nworld".toList).map (fun s => (s.command, s.level)) =
      [("preamble".toList, -1)] := by decide

/-! ### Parser invariants -/

/-- Relation between consecutive parsed sections: the next section starts one
character after the previous section's recorded end, and the previous section
spans at least its own start. -/
def adjRel (a b : MarkdownSection) : Prop :=
  b.start = a.endPos + 1 ∧ a.start ≤ a.endPos

/-- Replacing the final element of an `adjRel`-chain with one having the same
`start` (the parser overwrites only `content`, `endPos`, `lineEnd` of the open
section) preserves the chain. -/
theorem chain'_snoc_congr {xs : List MarkdownSection} {a b : MarkdownSection}
    (h : List.Chain' adjRel (xs ++ [a])) (hstart : b.start = a.start) :
    List.Chain' adjRel (xs ++ [b]) := by
  rw [List.chain'_append] at h ⊢
  obtain ⟨h1, _, h3⟩ := h
  refine ⟨h1, List.chain'_singleton _, ?_⟩
  intro p hp q hq
  simp only [List.head?_cons, Option.mem_def, Option.some.injEq] at hq
  subst hq
  have := h3 p hp a (by simp)
  exact ⟨by rw [hstart]; exact this.1, this.2⟩

/-- Extending an `adjRel`-chain at the end. -/
theorem chain'_snoc_extend {xs : List MarkdownSection} {a b : MarkdownSection}
    (h : List.Chain' adjRel (xs ++ [a])) (hab : adjRel a b) :
    List.Chain' adjRel ((xs ++ [a]) ++ [b]) := by
  rw [List.chain'_append]
  refine ⟨h, List.chain'_singleton _, ?_⟩
  intro p hp q hq
  simp only [List.head?_cons, Option.mem_def, Option.some.injEq] at hq
  subst hq
  rw [List.getLast?_concat] at hp
  simp only [Option.mem_def, Option.some.injEq] at hp
  subst hp
  exact hab

/-- Master invariant of `parseLoop` in the running state (an open current
section).  Assuming the running character count and the accumulated sections
are consistent, the final section list is nonempty, its concatenated `content`
fields recover everything consumed so far plus the glued remaining lines, all
contents end in a newline, the sections are `adjRel`-chained, the first start
is preserved and the final `endPos` is the document length. -/
theorem parseLoop_main (contentLen totalLines : Nat) (lines : List (List Char)) :
    ∀ (i charCount : Nat) (sections : List MarkdownSection) (c : MarkdownSection),
    charCount = c.start + c.content.length →
    c.content ≠ [] →
    c.content.getLast? = some nl →
    (∀ s ∈ sections, s.content ≠ [] ∧ s.content.getLast? = some nl) →
    List.Chain' adjRel (sections ++ [c]) →
    (parseLoop contentLen totalLines lines i charCount sections (some c) ≠ [] ∧
     ((parseLoop contentLen totalLines lines i charCount sections (some c)).map
        (fun s => s.content)).flatten
       = (sections.map (fun s => s.content)).flatten ++ c.content ++ glue lines ∧
     (∀ s ∈ parseLoop contentLen totalLines lines i charCount sections (some c),
        s.content ≠ [] ∧ s.content.getLast? = some nl) ∧
     List.Chain' adjRel (parseLoop contentLen totalLines lines i charCount sections (some c)) ∧
     ((parseLoop contentLen totalLines lines i charCount sections (some c)).head?).map
        (fun s => s.start) = ((sections ++ [c]).head?).map (fun s => s.start) ∧
     ((parseLoop contentLen totalLines lines i charCount sections (some c)).getLast?).map
        (fun s => s.endPos) = some contentLen) := by
  induction lines with
  | nil =>
    intro i charCount sections c h1 h2 h3 h4 h5
    simp only [parseLoop]
    constructor
    · simp
    constructor
    · simp [glue_nil]
    constructor
    · intro s hs
      rw [List.mem_append] at hs
      rcases hs with hs | hs
      · exact h4 s hs
      · simp only [List.mem_singleton] at hs
        subst hs
        exact ⟨h2, h3⟩
    constructor
    · exact chain'_snoc_congr h5 rfl
    constructor
    · cases sections <;> simp
    · simp [List.getLast?_concat]
  | cons line rest ih =>
    intro i charCount sections c h1 h2 h3 h4 h5
    have hccpos : 1 ≤ charCount := by
      have : 1 ≤ c.content.length := List.length_pos.mpr h2
      omega
    have hclen : 1 ≤ c.content.length := List.length_pos.mpr h2
    simp only [parseLoop]
    cases hm : matchCommand line with
    | some v =>
      obtain ⟨name, starred, ttl⟩ := v
      simp only
      -- the closed previous section and the freshly opened one
      have hstep := ih (i + 1) (charCount + line.length + 1)
        (sections ++ [{ c with endPos := charCount - 1, lineEnd := i - 1 }])
        { title := ttl
          command := name ++ (if starred then ['*'] else [])
          start := charCount
          endPos := contentLen
          content := line ++ [nl]
          level := commandLevels name
          lineStart := i
          lineEnd := totalLines - 1 }
        (by simp only [List.length_append, List.length_cons, List.length_nil]; omega)
        (by simp)
        (by simp [List.getLast?_concat])
        (by
          intro s hs
          rw [List.mem_append] at hs
          rcases hs with hs | hs
          · exact h4 s hs
          · simp only [List.mem_singleton] at hs
            subst hs
            exact ⟨h2, h3⟩)
        (by
          refine chain'_snoc_extend (chain'_snoc_congr h5 rfl) ?_
          constructor
          · simp only
            omega
          · simp only
            omega)
      obtain ⟨r1, r2, r3, r4, r5, r6⟩ := hstep
      refine ⟨r1, ?_, r3, r4, ?_, r6⟩
      · rw [r2]
        simp [glue_cons, List.append_assoc]
      · rw [r5]
        cases sections <;> simp
    | none =>
      simp only
      have hstep := ih (i + 1) (charCount + line.length + 1) sections
        { c with content := c.content ++ line ++ [nl] }
        (by simp only [List.length_append, List.length_cons, List.length_nil]; omega)
        (by simp)
        (by
          have : c.content ++ line ++ [nl] = (c.content ++ line) ++ [nl] := by
            simp [List.append_assoc]
          rw [this, List.getLast?_concat])
        h4
        (chain'_snoc_congr h5 rfl)
      obtain ⟨r1, r2, r3, r4, r5, r6⟩ := hstep
      refine ⟨r1, ?_, r3, r4, ?_, r6⟩
      · rw [r2]
        simp [glue_cons, List.append_assoc]
      · rw [r5]
        cases sections <;> simp

/-- The global structure of `parseMarkdownStructure`'s output, for every input:
the section list is nonempty; concatenating contents gives the document plus
one synthesized trailing newline; every content ends in a newline; sections
are `adjRel`-chained; the first section starts at 0 and the last section's
recorded end is the document length. -/
theorem parse_structure (content : List Char) :
    parseMarkdownStructure content ≠ [] ∧
    ((parseMarkdownStructure content).map (fun s => s.content)).flatten = content ++ [nl] ∧
    (∀ s ∈ parseMarkdownStructure content, s.content ≠ [] ∧ s.content.getLast? = some nl) ∧
    List.Chain' adjRel (parseMarkdownStructure content) ∧
    ((parseMarkdownStructure content).head?).map (fun s => s.start) = some 0 ∧
    ((parseMarkdownStructure content).getLast?).map (fun s => s.endPos) = some content.length := by
  unfold parseMarkdownStructure
  cases hsplit : splitLines content with
  | nil => exact absurd hsplit (splitLines_ne_nil content)
  | cons l ls =>
    have hglue : glue (l :: ls) = content ++ [nl] := by
      rw [← hsplit]; exact glue_splitLines content
    simp only [parseLoop]
    cases hm : matchCommand l with
    | some v =>
      obtain ⟨name, starred, ttl⟩ := v
      simp only
      have hstep := parseLoop_main content.length (l :: ls).length ls 1 (0 + l.length + 1) []
        { title := ttl
          command := name ++ (if starred then ['*'] else [])
          start := 0
          endPos := content.length
          content := l ++ [nl]
          level := commandLevels name
          lineStart := 0
          lineEnd := (l :: ls).length - 1 }
        (by simp only [List.length_append, List.length_cons, List.length_nil]; omega)
        (by simp)
        (by simp [List.getLast?_concat])
        (by intro s hs; simp at hs)
        (by simp [List.chain'_singleton])
      obtain ⟨r1, r2, r3, r4, r5, r6⟩ := hstep
      refine ⟨r1, ?_, r3, r4, ?_, r6⟩
      · rw [r2]
        rw [← hglue]
        simp [glue_cons, List.append_assoc]
      · rw [r5]; simp
    | none =>
      simp only [List.length_nil, if_true, Nat.zero_add]
      have hstep := parseLoop_main content.length (l :: ls).length ls 1 (l.length + 1) []
        { title := "Preamble".toList
          command := "preamble".toList
          start := 0
          endPos := content.length
          content := l ++ [nl]
          level := -1
          lineStart := 0
          lineEnd := (l :: ls).length - 1 }
        (by simp only [List.length_append, List.length_cons, List.length_nil]; omega)
        (by simp)
        (by simp [List.getLast?_concat])
        (by intro s hs; simp at hs)
        (by simp [List.chain'_singleton])
      obtain ⟨r1, r2, r3, r4, r5, r6⟩ := hstep
      refine ⟨r1, ?_, r3, r4, ?_, r6⟩
      · rw [r2]
        rw [← hglue]
        simp [glue_cons, List.append_assoc]
      · rw [r5]; simp

/-! ## A model of JavaScript `Array.prototype.sort` -/

/-- Insert `a` into `l` keeping every earlier element `b` with `le b a` in
front of it.  Together with `sortJs` this models the ECMAScript stable
comparison sort: an element added later is placed after elements that compare
equal to it. -/
def insertStable (le : α → α → Bool) (a : α) : List α → List α
  | [] => [a]
  | b :: rest => if le b a then b :: insertStable le a rest else a :: b :: rest

/-- JavaScript `Array.prototype.sort(cmp)` where `le x y` models
`cmp(x, y) <= 0`: a stable comparison sort (stable since ES2019), realised as
insertion sort so that it is structurally recursive and kernel-evaluable. -/
def sortJs (le : α → α → Bool) (l : List α) : List α :=
  l.foldl (fun acc a => insertStable le a acc) []

theorem insertStable_perm (le : α → α → Bool) (a : α) (l : List α) :
    List.Perm (insertStable le a l) (a :: l) := by
  induction l with
  | nil => exact List.Perm.refl _
  | cons b rest ih =>
    unfold insertStable
    by_cases h : le b a = true
    · rw [if_pos h]
      exact List.Perm.trans (List.Perm.cons b ih) (List.Perm.swap a b rest)
    · rw [if_neg h]

theorem sortJs_perm (le : α → α → Bool) (l : List α) :
    List.Perm (sortJs le l) l := by
  suffices h : ∀ acc, List.Perm (l.foldl (fun acc a => insertStable le a acc) acc) (l ++ acc) by
    simpa using h []
  induction l with
  | nil => intro acc; simp
  | cons x rest ih =>
    intro acc
    simp only [List.foldl_cons, List.cons_append]
    refine List.Perm.trans (ih (insertStable le x acc)) ?_
    have h1 : List.Perm (insertStable le x acc) (x :: acc) := insertStable_perm le x acc
    refine List.Perm.trans (List.Perm.append_left rest h1) ?_
    exact List.perm_middle

theorem insertStable_pairwise (le : α → α → Bool)
    (htot : ∀ a b, le a b = true ∨ le b a = true)
    (htrans : ∀ a b c, le a b = true → le b c = true → le a c = true)
    (a : α) (l : List α) (h : l.Pairwise (fun x y => le x y = true)) :
    (insertStable le a l).Pairwise (fun x y => le x y = true) := by
  induction l with
  | nil => exact List.pairwise_singleton _ _
  | cons b rest ih =>
    rw [List.pairwise_cons] at h
    obtain ⟨hb, hrest⟩ := h
    unfold insertStable
    by_cases hba : le b a = true
    · rw [if_pos hba]
      rw [List.pairwise_cons]
      refine ⟨?_, ih hrest⟩
      intro y hy
      have hmem := (insertStable_perm le a rest).mem_iff.mp hy
      rcases List.mem_cons.mp hmem with hya | hyr
      · subst hya; exact hba
      · exact hb y hyr
    · rw [if_neg hba]
      rw [List.pairwise_cons]
      refine ⟨?_, List.pairwise_cons.mpr ⟨hb, hrest⟩⟩
      intro y hy
      rcases List.mem_cons.mp hy with hyb | hyr
      · subst hyb
        rcases htot a y with h' | h'
        · exact h'
        · exact absurd h' hba
      · rcases htot a y with h' | h'
        · exact h'
        · exact absurd (htrans b y a (hb y hyr) h') hba

theorem sortJs_pairwise (le : α → α → Bool)
    (htot : ∀ a b, le a b = true ∨ le b a = true)
    (htrans : ∀ a b c, le a b = true → le b c = true → le a c = true)
    (l : List α) :
    (sortJs le l).Pairwise (fun x y => le x y = true) := by
  suffices h : ∀ acc, acc.Pairwise (fun x y => le x y = true) →
      (l.foldl (fun acc a => insertStable le a acc) acc).Pairwise
        (fun x y => le x y = true) by
    exact h [] (by simp)
  induction l with
  | nil => intro acc hacc; simpa using hacc
  | cons x rest ih =>
    intro acc hacc
    simp only [List.foldl_cons]
    exact ih _ (insertStable_pairwise le htot htrans x acc hacc)

/-! ## Section extractor (`extractSectionContent` in `markdownParser.ts`) -/

/-- `Math.min(...l)` for a list that is nonempty at every call site (JavaScript
would yield `Infinity` on an empty spread; that case is unreachable here). -/
def listMinD (l : List Nat) : Nat :=
  match l.min? with
  | some m => m
  | none => 0

/-- `Math.max(...l)`, nonempty at every call site. -/
def listMaxD (l : List Nat) : Nat :=
  match l.max? with
  | some m => m
  | none => 0

/-- JavaScript `s.substring(a, b)` for `a ≤ b` (the only way it is called
here): the characters at indices `[a, b)`. -/
def substringJs (s : List Char) (a b : Nat) : List Char :=
  (s.drop a).take (b - a)

/-- Result record of `extractSectionContent`. -/
structure ExtractResult where
  extractedContent : List Char
  startChar : Nat
  endChar : Nat
  sections : List MarkdownSection
deriving DecidableEq, Repr

/-- `extractSectionContent` from `markdownParser.ts`.  Indices are modelled as
`Int` so that the `i < 0` test of the source is meaningful.  If the target
list is empty or mentions an out-of-range index, the whole document is
returned (offsets `0` and `content.length`); otherwise the minimal contiguous
character span covering the selected sections is extracted. -/
def extractSectionContent (content : List Char) (targetSections : List Int) :
    ExtractResult :=
  let sections := parseMarkdownStructure content
  if targetSections.isEmpty ||
      targetSections.any (fun i => i < 0 || (sections.length : Int) ≤ i) then
    ⟨content, 0, content.length, sections⟩
  else
    let sortedIndices := sortJs (fun a b => decide (a ≤ b)) targetSections
    let targetedSections := sortedIndices.map (fun i => sections.getD i.toNat default)
    let startChar := listMinD (targetedSections.map (fun s => s.start))
    let endChar := listMaxD (targetedSections.map (fun s => s.endPos))
    ⟨substringJs content startChar endChar, startChar, endChar, targetedSections⟩

example :
    (extractSectionContent "\\section{A}\nbody".toList []).extractedContent
      = "\\section{A}\nbody".toList := by decide
example :
    (extractSectionContent "\\section{A}\n\\section{B}".toList [1]).extractedContent
      = "\\section{B}".toList := by decide

/-! ## Claims about the structural parser -/

/-- C1 (counterexample): for the two-heading document
`"\section{A}\n\section{B}"` (length 23) the parser returns section ranges
`(0, 11)` and `(12, 23)`.  Read half-open, these ranges leave character 11
(the newline) uncovered; read closed, they cover position 23, which is outside
`[0, 23)`.  Under neither reading do the ranges partition `[0, len(D))`. -/
theorem C1_partition_counterexample :
    ((parseMarkdownStructure "\\section{A}\n\\section{B}".toList).map
        (fun s => (s.start, s.endPos)) = [(0, 11), (12, 23)] ∧
      ("\\section{A}\n\\section{B}".toList).length = 23) ∧
    ((parseMarkdownStructure "\\section{A}\n\\section{B}".toList).all
        (fun s => !(decide (s.start ≤ 11) && decide (11 < s.endPos))) = true ∧
      (parseMarkdownStructure "\\section{A}\n\\section{B}".toList).any
        (fun s => decide (s.start ≤ 23) && decide (23 ≤ s.endPos)) = true) := by
  decide

/-- C1 (amended): for every document the section list is nonempty and ordered
by strictly ascending `charStart`; the first section starts at 0, each later
section starts exactly one character past the previous section's recorded
`charEnd`, and the last section's `charEnd` equals the document length.  (The
ranges hence tile `[0, len(D))` only up to the one newline character at each
internal boundary and the final recorded end of `len(D)`.) -/
theorem C1_amended_sections_adjacent (content : List Char) :
    parseMarkdownStructure content ≠ [] ∧
    ((parseMarkdownStructure content).head?).map (fun s => s.start) = some 0 ∧
    ((parseMarkdownStructure content).getLast?).map (fun s => s.endPos)
      = some content.length ∧
    List.Chain' (fun a b => b.start = a.endPos + 1) (parseMarkdownStructure content) ∧
    List.Chain' (fun a b => a.start < b.start) (parseMarkdownStructure content) := by
  obtain ⟨h1, _, _, h4, h5, h6⟩ := parse_structure content
  refine ⟨h1, h5, h6, h4.imp (fun a b hab => hab.1),
    h4.imp (fun a b hab => ?_)⟩
  obtain ⟨he, hle⟩ := hab
  omega

/-- C2 (counterexample): on the empty string the parser does not return an
empty section list; it returns exactly one section (JavaScript
`"".split('\n')` is `[""]`, so the loop body runs once and opens the
synthetic Preamble). -/
theorem C2_counterexample :
    parseMarkdownStructure "".toList ≠ [] ∧
    (parseMarkdownStructure "".toList).length = 1 := by
  decide

/-- C2 (amended): `parseMarkdownStructure` is total by construction (it is a
Lean function on all of `List Char`), and on the empty string it returns
exactly one section: the synthetic Preamble spanning `start = 0`,
`endPos = 0`, with content a single synthesized newline. -/
theorem C2_amended_empty_input :
    parseMarkdownStructure "".toList =
      [{ title := "Preamble".toList
         command := "preamble".toList
         start := 0
         endPos := 0
         content := [nl]
         level := -1
         lineStart := 0
         lineEnd := 0 }] := by
  decide

/-- C3 (confirmed): whenever the target index list is empty or mentions an
index outside `[0, number of sections)`, `extractSectionContent` falls open to
the whole document: the extracted content is the document itself, with offsets
`0` and `len(D)`. -/
theorem C3_extract_fail_open (content : List Char) (targetSections : List Int)
    (h : targetSections = [] ∨ ∃ i ∈ targetSections,
      i < 0 ∨ ((parseMarkdownStructure content).length : Int) ≤ i) :
    (extractSectionContent content targetSections).extractedContent = content ∧
    (extractSectionContent content targetSections).startChar = 0 ∧
    (extractSectionContent content targetSections).endChar = content.length := by
  have hcond : (targetSections.isEmpty ||
      targetSections.any
        (fun i => i < 0 || ((parseMarkdownStructure content).length : Int) ≤ i)) = true := by
    rcases h with h | ⟨i, hi, hprop⟩
    · subst h; simp
    · rw [Bool.or_eq_true]
      right
      rw [List.any_eq_true]
      refine ⟨i, hi, ?_⟩
      rcases hprop with h' | h' <;> simp [h']
  unfold extractSectionContent
  simp only [hcond, if_true]
  exact ⟨trivial, trivial, trivial⟩

/-- Witness for C3 at a concrete input: the empty index list on `"abc"`. -/
theorem C3_extract_fail_open_witness :
    (extractSectionContent "abc".toList []).extractedContent = "abc".toList ∧
    (extractSectionContent "abc".toList []).startChar = 0 ∧
    (extractSectionContent "abc".toList []).endChar = 3 :=
  C3_extract_fail_open "abc".toList [] (Or.inl rfl)

/-- C10 (confirmed): every section's content ends in a newline, and the
concatenation of all section contents in order is the document followed by
exactly one synthesized trailing newline. -/
theorem C10_contents_carry_newline (content : List Char) :
    (∀ s ∈ parseMarkdownStructure content,
      s.content ≠ [] ∧ s.content.getLast? = some nl) ∧
    ((parseMarkdownStructure content).map (fun s => s.content)).flatten
      = content ++ [nl] := by
  obtain ⟨_, h2, h3, _, _, _⟩ := parse_structure content
  exact ⟨h3, h2⟩

/-! ## Token-budget chunker (content-limits utility module) -/

/-- `estimateTokenCount`: `Math.ceil(text.length / 4)`. -/
def estimateTokenCount (text : List Char) : Nat :=
  (text.length + 3) / 4

/-- `ContentChunk` from the content-limits module. -/
structure ContentChunk where
  content : List Char
  startChar : Nat
  endChar : Nat
  estimatedTokens : Nat
deriving DecidableEq, Repr, Inhabited

/-- The chunk record flushed by `chunkContent` for an untrimmed buffer `u`
starting at offset `s`: content is trimmed, `endChar` is `s + u.length - 1`,
and the token estimate is taken on the untrimmed buffer (as in the source).
The final flush uses `currentCharCount - 1`, which coincides because
`currentCharCount = currentStart + currentChunk.length` throughout. -/
def mkChunk (s : Nat) (u : List Char) : ContentChunk :=
  ⟨trimEnd u, s, s + u.length - 1, estimateTokenCount u⟩

/-- The accumulation loop of `chunkContent`, recursing over the remaining
lines with the current buffer, its start offset, the running character count
and the flushed chunks. -/
def chunkLoop (maxChars : Nat) :
    List (List Char) → List Char → Nat → Nat → List ContentChunk → List ContentChunk
  | [], currentChunk, currentStart, currentCharCount, chunks =>
    if 0 < currentChunk.length then
      chunks ++ [⟨trimEnd currentChunk, currentStart, currentCharCount - 1,
        estimateTokenCount currentChunk⟩]
    else chunks
  | line :: rest, currentChunk, currentStart, currentCharCount, chunks =>
    let lineWithNewline := line ++ [nl]
    if maxChars < currentChunk.length + lineWithNewline.length ∧ 0 < currentChunk.length then
      chunkLoop maxChars rest lineWithNewline currentCharCount
        (currentCharCount + lineWithNewline.length)
        (chunks ++ [⟨trimEnd currentChunk, currentStart,
          currentStart + currentChunk.length - 1, estimateTokenCount currentChunk⟩])
    else
      chunkLoop maxChars rest (currentChunk ++ lineWithNewline) currentStart
        (currentCharCount + lineWithNewline.length) chunks

/-- `chunkContent` from the content-limits module: content within budget is a
single whole-input chunk; otherwise lines are accumulated into buffers that
are flushed (with trailing whitespace trimmed from the stored content) just
before they would exceed `maxChars`. -/
def chunkContent (content : List Char) (maxChars : Nat) : List ContentChunk :=
  if content.length ≤ maxChars then
    [⟨content, 0, content.length, estimateTokenCount content⟩]
  else
    chunkLoop maxChars (splitLines content) [] 0 0 []

/-- Specification view of the chunking pass: the list of untrimmed buffers
(the grouping of lines into chunks), without offset bookkeeping. -/
def buffers (maxChars : Nat) : List (List Char) → List Char → List (List Char)
  | [], cur => if 0 < cur.length then [cur] else []
  | line :: rest, cur =>
    let lwn := line ++ [nl]
    if maxChars < cur.length + lwn.length ∧ 0 < cur.length then
      cur :: buffers maxChars rest lwn
    else
      buffers maxChars rest (cur ++ lwn)

/-- Assign sequential offsets to a list of untrimmed buffers. -/
def withOffsets (s : Nat) : List (List Char) → List ContentChunk
  | [] => []
  | u :: us => mkChunk s u :: withOffsets (s + u.length) us

/-- Bridge: the chunk loop produces exactly the offset-decorated buffers,
provided the running character count equals buffer start plus buffer
length (which holds at every call site). -/
theorem chunkLoop_eq_withOffsets (maxChars : Nat) (lines : List (List Char)) :
    ∀ (cur : List Char) (cs cc : Nat) (chunks : List ContentChunk),
    cc = cs + cur.length →
    chunkLoop maxChars lines cur cs cc chunks
      = chunks ++ withOffsets cs (buffers maxChars lines cur) := by
  induction lines with
  | nil =>
    intro cur cs cc chunks hcc
    simp only [chunkLoop, buffers]
    by_cases h : 0 < cur.length
    · rw [if_pos h, if_pos h]
      simp [withOffsets, mkChunk, hcc]
    · rw [if_neg h, if_neg h]
      simp [withOffsets]
  | cons line rest ih =>
    intro cur cs cc chunks hcc
    simp only [chunkLoop, buffers]
    by_cases h : maxChars < cur.length + (line ++ [nl]).length ∧ 0 < cur.length
    · rw [if_pos h, if_pos h]
      rw [ih (line ++ [nl]) cc (cc + (line ++ [nl]).length) _ rfl]
      simp only [withOffsets, mkChunk, hcc]
      simp [List.append_assoc]
    · rw [if_neg h, if_neg h]
      rw [ih (cur ++ (line ++ [nl])) cs (cc + (line ++ [nl]).length) chunks
        (by simp only [List.length_append, List.length_cons, List.length_nil]; omega)]

example :
    (chunkContent "ab\ncd\nef".toList 3).map (fun c => (c.content, c.startChar, c.endChar))
      = [("ab".toList, 0, 2), ("cd".toList, 3, 5), ("ef".toList, 6, 8)] := by decide
example :
    (chunkContent "ab\ncd".toList 99).map (fun c => (c.content, c.startChar, c.endChar))
      = [("ab\ncd".toList, 0, 5)] := by decide

/-! ### Properties of the chunking pass -/

/-- Each buffer produced by the chunking pass is the glue of a nonempty group
of consecutive input lines, and the groups partition the input lines in
order. -/
theorem buffers_grouping (maxChars : Nat) (lines : List (List Char)) :
    ∀ (g0 : List (List Char)),
    ∃ gs, List.Forall₂ (fun u g => u = glue g) (buffers maxChars lines (glue g0)) gs ∧
      gs.flatten = g0 ++ lines ∧ ∀ g ∈ gs, g ≠ [] := by
  induction lines with
  | nil =>
    intro g0
    simp only [buffers]
    by_cases h : 0 < (glue g0).length
    · rw [if_pos h]
      refine ⟨[g0], ?_, by simp, ?_⟩
      · exact List.forall₂_cons.mpr ⟨rfl, List.Forall₂.nil⟩
      · intro g hg
        simp only [List.mem_singleton] at hg
        subst hg
        intro hnil
        subst hnil
        simp [glue_nil] at h
    · rw [if_neg h]
      have : glue g0 = [] := by
        cases hg : glue g0 with
        | nil => rfl
        | cons a l => rw [hg] at h; simp at h
      have hg0 : g0 = [] := (glue_eq_nil_iff g0).mp this
      subst hg0
      exact ⟨[], List.Forall₂.nil, by simp, by simp⟩
  | cons line rest ih =>
    intro g0
    simp only [buffers]
    by_cases h : maxChars < (glue g0).length + (line ++ [nl]).length ∧ 0 < (glue g0).length
    · rw [if_pos h]
      have hlwn : line ++ [nl] = glue [line] := by simp [glue_cons, glue_nil]
      obtain ⟨gs, h1, h2, h3⟩ := by
        have := ih [line]
        rwa [← hlwn] at this
      refine ⟨g0 :: gs, List.forall₂_cons.mpr ⟨rfl, h1⟩, ?_, ?_⟩
      · simp [h2]
      · intro g hg
        rcases List.mem_cons.mp hg with hg | hg
        · subst hg
          intro hnil
          subst hnil
          simp [glue_nil] at h
        · exact h3 g hg
    · rw [if_neg h]
      have hshift : glue g0 ++ (line ++ [nl]) = glue (g0 ++ [line]) := by
        rw [glue_append]
        simp [glue_cons, glue_nil]
      obtain ⟨gs, h1, h2, h3⟩ := by
        have := ih (g0 ++ [line])
        rwa [← hshift] at this
      refine ⟨gs, h1, ?_, h3⟩
      rw [h2]
      simp [List.append_assoc]

/-- The chunking pass over at least one line yields at least one buffer. -/
theorem buffers_ne_nil (maxChars : Nat) :
    ∀ (rest : List (List Char)) (line cur : List Char),
    buffers maxChars (line :: rest) cur ≠ [] := by
  intro rest
  induction rest with
  | nil =>
    intro line cur
    simp only [buffers]
    by_cases h : maxChars < cur.length + (line ++ [nl]).length ∧ 0 < cur.length
    · rw [if_pos h]; simp
    · rw [if_neg h]
      have : 0 < (cur ++ (line ++ [nl])).length := by simp
      rw [if_pos this]
      simp
  | cons r rs ih =>
    intro line cur
    simp only [buffers]
    by_cases h : maxChars < cur.length + (line ++ [nl]).length ∧ 0 < cur.length
    · rw [if_pos h]; simp
    · rw [if_neg h]
      exact ih r (cur ++ (line ++ [nl]))

theorem withOffsets_length (s : Nat) (us : List (List Char)) :
    (withOffsets s us).length = us.length := by
  induction us generalizing s with
  | nil => simp [withOffsets]
  | cons u us ih => simp [withOffsets, ih]

theorem withOffsets_map_content (s : Nat) (us : List (List Char)) :
    (withOffsets s us).map (fun c => c.content) = us.map trimEnd := by
  induction us generalizing s with
  | nil => simp [withOffsets]
  | cons u us ih => simp [withOffsets, mkChunk, ih]

theorem withOffsets_head_start (s : Nat) (us : List (List Char)) (h : us ≠ []) :
    ((withOffsets s us).head?).map (fun c => c.startChar) = some s := by
  cases us with
  | nil => exact absurd rfl h
  | cons u us => simp [withOffsets, mkChunk]

/-- Offsets of consecutive chunks are adjacent: each later chunk starts one
character past the previous chunk's recorded end (buffers are nonempty, so
the `- 1` in `endChar` does not underflow). -/
theorem withOffsets_chain (us : List (List Char)) :
    ∀ (s : Nat), (∀ u ∈ us, u ≠ []) →
    List.Chain' (fun a b => b.startChar = a.endChar + 1) (withOffsets s us) := by
  induction us with
  | nil => intro s _; simp [withOffsets]
  | cons u us ih =>
    intro s hne
    cases us with
    | nil => simp [withOffsets]
    | cons u' us' =>
      simp only [withOffsets]
      rw [List.chain'_cons]
      constructor
      · simp only [mkChunk]
        have : u ≠ [] := hne u (by simp)
        have : 1 ≤ u.length := List.length_pos.mpr this
        omega
      · have := ih (s + u.length) (fun v hv => hne v (List.mem_cons_of_mem u hv))
        simpa [withOffsets] using this

theorem glue_flatten (gs : List (List (List Char))) :
    (gs.map glue).flatten = glue gs.flatten := by
  induction gs with
  | nil => simp [glue_nil]
  | cons g gs ih => simp [glue_append, ih]

/-- A nonempty head makes the flatten nonempty. -/
theorem flatten_cons_ne_nil {v : List Char} {vs : List (List Char)} (hv : v ≠ []) :
    (v :: vs).flatten ≠ [] := by
  simp only [List.flatten_cons]
  intro h
  rcases List.append_eq_nil.mp h with ⟨h1, _⟩
  exact hv h1

/-- The recorded offsets of every chunk delimit its untrimmed source slice in
the document `D`: taking `endChar + 1 - startChar` characters of `D` from
`startChar` yields the stored (trimmed) content followed by whitespace only.
The buffers must reglue to the document suffix plus the one synthesized
trailing newline, which is exactly the shape produced by the chunking pass. -/
theorem withOffsets_slices (D : List Char) :
    ∀ (us : List (List Char)) (s : Nat),
    us.flatten = D.drop s ++ [nl] →
    (∀ u ∈ us, u ≠ []) →
    ∀ c ∈ withOffsets s us, ∃ w, w.all isJsWhitespace = true ∧
      (D.drop c.startChar).take (c.endChar + 1 - c.startChar) = c.content ++ w := by
  intro us
  induction us with
  | nil => intro s _ _ c hc; simp [withOffsets] at hc
  | cons u us' ih =>
    intro s hflat hne c hc
    have hune : u ≠ [] := hne u (by simp)
    have hulen : 1 ≤ u.length := List.length_pos.mpr hune
    have htake : (mkChunk s u).endChar + 1 - (mkChunk s u).startChar = u.length := by
      simp only [mkChunk]
      omega
    simp only [List.flatten_cons] at hflat
    rcases List.mem_cons.mp hc with hc | hc
    · subst hc
      cases hus' : us' with
      | nil =>
        subst hus'
        simp only [List.flatten_nil, List.append_nil] at hflat
        -- u is the last buffer: it extends one synthesized newline past D
        obtain ⟨w, hw, hdecomp⟩ := trimEnd_decomp (D.drop s)
        refine ⟨w, hw, ?_⟩
        rw [htake]
        simp only [mkChunk]
        have htake_all : (D.drop s).take u.length = D.drop s := by
          refine List.take_of_length_le ?_
          have := congrArg List.length hflat
          simp only [List.length_append, List.length_cons, List.length_nil] at this
          omega
        have hcontent : trimEnd u = trimEnd (D.drop s) := by
          rw [hflat]
          exact trimEnd_append_ws (D.drop s) nl (by decide)
        rw [htake_all, hcontent]
        exact hdecomp.symm
      | cons v vs =>
        subst hus'
        have hFne : (v :: vs).flatten ≠ [] :=
          flatten_cons_ne_nil (hne v (by simp))
        have hlen_le : u.length ≤ (D.drop s).length := by
          have := congrArg List.length hflat
          simp only [List.length_append, List.length_cons, List.length_nil] at this
          have hF : 1 ≤ (v :: vs).flatten.length := List.length_pos.mpr hFne
          omega
        have hu_eq : u = (D.drop s).take u.length := by
          have h1 : (u ++ (v :: vs).flatten).take u.length = u := List.take_left u _
          rw [hflat] at h1
          rw [List.take_append_of_le_length hlen_le] at h1
          exact h1.symm
        obtain ⟨w, hw, hdecomp⟩ := trimEnd_decomp u
        refine ⟨w, hw, ?_⟩
        rw [htake]
        simp only [mkChunk]
        rw [← hu_eq]
        exact hdecomp.symm
    · -- a later chunk: recurse with the shifted offset
      have hFne : (fun F => F ≠ []) ((fun l => l.flatten) us') ∨ us' = [] := by
        cases us' with
        | nil => exact Or.inr rfl
        | cons v vs => exact Or.inl (flatten_cons_ne_nil (hne v (by simp)))
      cases us' with
      | nil => simp [withOffsets] at hc
      | cons v vs =>
        have hFne' : (v :: vs).flatten ≠ [] := flatten_cons_ne_nil (hne v (by simp))
        have hlen_le : u.length ≤ (D.drop s).length := by
          have := congrArg List.length hflat
          simp only [List.length_append, List.length_cons, List.length_nil] at this
          have hF : 1 ≤ (v :: vs).flatten.length := List.length_pos.mpr hFne'
          omega
        have hshift : (v :: vs).flatten = D.drop (s + u.length) ++ [nl] := by
          have h1 : (u ++ (v :: vs).flatten).drop u.length = (v :: vs).flatten := by
            rw [List.drop_append_of_le_length (le_refl u.length)]
            simp
          rw [hflat] at h1
          rw [List.drop_append_of_le_length hlen_le] at h1
          rw [← h1, List.drop_drop]
        exact ih (s + u.length) hshift
          (fun x hx => hne x (List.mem_cons_of_mem u hx)) c hc

/-- Composing two pointwise relations along a middle list. -/
theorem forall₂_compose {α β γ : Type} {R : α → β → Prop} {S : β → γ → Prop}
    {T' : α → γ → Prop} (h : ∀ a b c, R a b → S b c → T' a c) :
    ∀ {l₁ : List α} {l₂ : List β} {l₃ : List γ},
    List.Forall₂ R l₁ l₂ → List.Forall₂ S l₂ l₃ → List.Forall₂ T' l₁ l₃ := by
  intro l₁ l₂ l₃ h12 h23
  induction h12 generalizing l₃ with
  | nil =>
    cases h23
    exact List.Forall₂.nil
  | cons hab htail ih =>
    cases h23 with
    | cons hbc htail' =>
      exact List.Forall₂.cons (h _ _ _ hab hbc) (ih htail')

/-- Reassembly: if every buffer is nonempty and ends in a newline, there is a
choice of whitespace paddings under which the trimmed buffers concatenate back
to the flattened buffers minus the one final newline. -/
theorem trim_reassemble :
    ∀ (us : List (List Char)), us ≠ [] →
    (∀ u ∈ us, u ≠ [] ∧ u.getLast? = some nl) →
    ∃ ws, ws.length = us.length ∧ (∀ w ∈ ws, w.all isJsWhitespace = true) ∧
      (List.zipWith (fun u w => trimEnd u ++ w) us ws).flatten
        = us.flatten.dropLast := by
  intro us
  induction us with
  | nil => intro h; exact absurd rfl h
  | cons u us' ih =>
    intro _ hprop
    obtain ⟨hune, hulast⟩ := hprop u (by simp)
    obtain ⟨w, hw, hdecomp⟩ := trimEnd_decomp u
    cases us' with
    | nil =>
      -- single buffer: also trim the synthesized final newline from the padding
      have hsplit : u.dropLast ++ [nl] = u := List.dropLast_append_getLast? nl hulast
      have hwne : w ≠ [] := by
        intro hnil
        subst hnil
        rw [List.append_nil] at hdecomp
        have h1 : trimEnd u = trimEnd u.dropLast := by
          conv_lhs => rw [← hsplit]
          exact trimEnd_append_ws u.dropLast nl (by decide)
        obtain ⟨w', _, hd'⟩ := trimEnd_decomp u.dropLast
        have hlen1 : (trimEnd u.dropLast).length ≤ u.dropLast.length := by
          have := congrArg List.length hd'
          simp only [List.length_append] at this
          omega
        have hlen2 : u.dropLast.length + 1 = u.length := by
          have := congrArg List.length hsplit
          simpa using this
        rw [hdecomp] at h1
        have := congrArg List.length h1
        omega
      have hwlast : w.getLast? = some nl := by
        rw [← hdecomp] at hulast
        rwa [List.getLast?_append_of_ne_nil (trimEnd u) hwne] at hulast
      refine ⟨[w.dropLast], by simp, ?_, ?_⟩
      · intro x hx
        simp only [List.mem_singleton] at hx
        subst hx
        rw [List.all_eq_true] at hw ⊢
        intro c hc
        exact hw c (List.dropLast_subset w hc)
      · have hz : List.zipWith (fun u w => trimEnd u ++ w) [u] [w.dropLast]
            = [trimEnd u ++ w.dropLast] := rfl
        rw [hz]
        have hf : ([u] : List (List Char)).flatten = u := by simp
        have hf2 : ([trimEnd u ++ w.dropLast] : List (List Char)).flatten
            = trimEnd u ++ w.dropLast := by simp
        rw [hf, hf2]
        conv_rhs => rw [← hdecomp]
        rw [List.dropLast_append_of_ne_nil _ hwne]
    | cons v vs =>
      obtain ⟨ws', hlen', hws', heq'⟩ :=
        ih (by simp) (fun x hx => hprop x (List.mem_cons_of_mem u hx))
      refine ⟨w :: ws', by simp [hlen'], ?_, ?_⟩
      · intro x hx
        rcases List.mem_cons.mp hx with hx | hx
        · subst hx; exact hw
        · exact hws' x hx
      · simp only [List.zipWith_cons_cons, List.flatten_cons]
        rw [heq', hdecomp]
        have hvne : (v :: vs).flatten ≠ [] := flatten_cons_ne_nil (hprop v (by simp)).1
        have hA : v ++ vs.flatten ≠ [] := by
          simpa [List.flatten_cons] using hvne
        rw [List.dropLast_append_of_ne_nil _ hA, List.flatten_cons]

/-- A glued nonempty group ends in the appended newline. -/
theorem glue_getLast (g : List (List Char)) (h : g ≠ []) :
    (glue g).getLast? = some nl := by
  induction g with
  | nil => exact absurd rfl h
  | cons l g' ih =>
    cases g' with
    | nil => simp [glue_cons, glue_nil, List.getLast?_concat]
    | cons l' g'' =>
      rw [glue_cons]
      rw [List.getLast?_append_of_ne_nil _ (glue_ne_nil (by simp))]
      exact ih (by simp)

theorem forall₂_mem_left {α β : Type} {R : α → β → Prop} :
    ∀ {l₁ : List α} {l₂ : List β}, List.Forall₂ R l₁ l₂ →
    ∀ a ∈ l₁, ∃ b ∈ l₂, R a b := by
  intro l₁ l₂ h
  induction h with
  | nil => intro a ha; simp at ha
  | cons hab htail ih =>
    intro x hx
    rcases List.mem_cons.mp hx with hx | hx
    · subst hx
      exact ⟨_, by simp, hab⟩
    · obtain ⟨b, hb, hrb⟩ := ih x hx
      exact ⟨b, List.mem_cons_of_mem _ hb, hrb⟩

theorem forall₂_glue_eq_map :
    ∀ {us : List (List Char)} {gs : List (List (List Char))},
    List.Forall₂ (fun u g => u = glue g) us gs → us = gs.map glue := by
  intro us gs h
  induction h with
  | nil => rfl
  | cons hab _ ih => simp [hab, ih]

theorem withOffsets_forall₂ (us : List (List Char)) :
    ∀ (s : Nat),
    List.Forall₂ (fun (c : ContentChunk) u => c.content = trimEnd u)
      (withOffsets s us) us := by
  induction us with
  | nil => intro s; exact List.Forall₂.nil
  | cons u us' ih =>
    intro s
    exact List.Forall₂.cons rfl (ih (s + u.length))

theorem withOffsets_zipWith (us : List (List Char)) :
    ∀ (s : Nat) (ws : List (List Char)),
    List.zipWith (fun (c : ContentChunk) w => c.content ++ w) (withOffsets s us) ws
      = List.zipWith (fun u w => trimEnd u ++ w) us ws := by
  induction us with
  | nil => intro s ws; simp [withOffsets]
  | cons u us' ih =>
    intro s ws
    cases ws with
    | nil => simp [withOffsets]
    | cons w ws' =>
      simp only [withOffsets, List.zipWith_cons_cons, mkChunk]
      rw [ih (s + u.length) ws']

/-- In the over-budget case `chunkContent` is exactly the offset-decorated
buffer list. -/
theorem chunkContent_eq_withOffsets (T : List Char) (maxChars : Nat)
    (h : ¬ T.length ≤ maxChars) :
    chunkContent T maxChars
      = withOffsets 0 (buffers maxChars (splitLines T) []) := by
  unfold chunkContent
  rw [if_neg h]
  have := chunkLoop_eq_withOffsets maxChars (splitLines T) [] 0 0 [] (by simp)
  rw [this]
  simp

/-- The buffer list of the over-budget case: groups of whole input lines,
each nonempty, partitioning the split input. -/
theorem buffers_top (T : List Char) (maxChars : Nat) :
    ∃ gs, List.Forall₂ (fun u g => u = glue g)
        (buffers maxChars (splitLines T) []) gs ∧
      gs.flatten = splitLines T ∧ ∀ g ∈ gs, g ≠ [] := by
  have h := buffers_grouping maxChars (splitLines T) []
  rw [glue_nil] at h
  obtain ⟨gs, h1, h2, h3⟩ := h
  exact ⟨gs, h1, by simpa using h2, h3⟩

/-- Buffers of the over-budget case are nonempty and end in a newline; the
buffer list itself is nonempty. -/
theorem buffers_top_facts (T : List Char) (maxChars : Nat) :
    buffers maxChars (splitLines T) [] ≠ [] ∧
    (∀ u ∈ buffers maxChars (splitLines T) [], u ≠ [] ∧ u.getLast? = some nl) ∧
    (buffers maxChars (splitLines T) []).flatten = T ++ [nl] := by
  obtain ⟨gs, h1, h2, h3⟩ := buffers_top T maxChars
  refine ⟨?_, ?_, ?_⟩
  · intro hnil
    rw [hnil] at h1
    cases h1
    exact splitLines_ne_nil T h2.symm
  · intro u hu
    obtain ⟨g, hg, hug⟩ := forall₂_mem_left h1 u hu
    subst hug
    exact ⟨glue_ne_nil (h3 g hg), glue_getLast g (h3 g hg)⟩
  · rw [forall₂_glue_eq_map h1, glue_flatten, h2, glue_splitLines]

/-- `chunkContent` never returns an empty list. -/
theorem chunkContent_ne_nil (T : List Char) (maxChars : Nat) :
    chunkContent T maxChars ≠ [] := by
  by_cases h : T.length ≤ maxChars
  · unfold chunkContent
    rw [if_pos h]
    simp
  · rw [chunkContent_eq_withOffsets T maxChars h]
    obtain ⟨hne, _, _⟩ := buffers_top_facts T maxChars
    intro hnil
    have := withOffsets_length 0 (buffers maxChars (splitLines T) [])
    rw [hnil] at this
    exact hne (List.length_eq_zero.mp this.symm)

/-! ## Claims about the chunker offsets and reassembly -/

/-- C5 (confirmed): the chunk contents, padded with the per-chunk trimmed
trailing whitespace, concatenate back to the input text, and every chunk is
the trimming of a glue of a nonempty group of consecutive whole input lines —
no chunk boundary splits a line. -/
theorem C5_chunks_reassemble (T : List Char) (maxChars : Nat) (h : 1 ≤ maxChars) :
    (∃ gs : List (List (List Char)),
      List.Forall₂ (fun (c : ContentChunk) g => ∃ w, w.all isJsWhitespace = true ∧
          c.content ++ w = glue g) (chunkContent T maxChars) gs ∧
      gs.flatten = splitLines T ∧ ∀ g ∈ gs, g ≠ []) ∧
    (∃ ws : List (List Char), ws.length = (chunkContent T maxChars).length ∧
      (∀ w ∈ ws, w.all isJsWhitespace = true) ∧
      (List.zipWith (fun (c : ContentChunk) w => c.content ++ w)
        (chunkContent T maxChars) ws).flatten = T) := by
  by_cases hsmall : T.length ≤ maxChars
  · have hchunk : chunkContent T maxChars
        = [⟨T, 0, T.length, estimateTokenCount T⟩] := by
      unfold chunkContent
      rw [if_pos hsmall]
    constructor
    · refine ⟨[splitLines T], ?_, by simp, by simp [splitLines_ne_nil]⟩
      rw [hchunk]
      refine List.Forall₂.cons ⟨[nl], by decide, ?_⟩ List.Forall₂.nil
      exact (glue_splitLines T).symm
    · refine ⟨[[]], by rw [hchunk]; rfl, by simp, ?_⟩
      rw [hchunk]
      simp
  · have hchunk := chunkContent_eq_withOffsets T maxChars hsmall
    obtain ⟨gs, hF, hflat, hgne⟩ := buffers_top T maxChars
    obtain ⟨husne, huprops, husflat⟩ := buffers_top_facts T maxChars
    constructor
    · refine ⟨gs, ?_, hflat, hgne⟩
      rw [hchunk]
      refine forall₂_compose ?_ (withOffsets_forall₂ _ 0) hF
      intro c u g hcu hug
      obtain ⟨w, hw, hdecomp⟩ := trimEnd_decomp u
      exact ⟨w, hw, by rw [hcu, hdecomp, hug]⟩
    · obtain ⟨ws, hlen, hall, heq⟩ :=
        trim_reassemble (buffers maxChars (splitLines T) []) husne huprops
      refine ⟨ws, ?_, hall, ?_⟩
      · rw [hchunk, withOffsets_length, hlen]
      · rw [hchunk, withOffsets_zipWith, heq, husflat, List.dropLast_concat]

/-- Witness for C5 at `T = "ab\ncd\nef"`, `maxChars = 3` (three chunks). -/
theorem C5_chunks_reassemble_witness :
    (∃ gs : List (List (List Char)),
      List.Forall₂ (fun (c : ContentChunk) g => ∃ w, w.all isJsWhitespace = true ∧
          c.content ++ w = glue g) (chunkContent "ab\ncd\nef".toList 3) gs ∧
      gs.flatten = splitLines "ab\ncd\nef".toList ∧ ∀ g ∈ gs, g ≠ []) ∧
    (∃ ws : List (List Char), ws.length = (chunkContent "ab\ncd\nef".toList 3).length ∧
      (∀ w ∈ ws, w.all isJsWhitespace = true) ∧
      (List.zipWith (fun (c : ContentChunk) w => c.content ++ w)
        (chunkContent "ab\ncd\nef".toList 3) ws).flatten = "ab\ncd\nef".toList) :=
  C5_chunks_reassemble "ab\ncd\nef".toList 3 (by decide)

/-- C7 (confirmed): chunks of one pass are contiguous and ordered — the first
chunk starts at 0 and each later chunk starts one character past the previous
chunk's recorded end — and each chunk's offsets delimit its untrimmed source
slice: taking `endChar + 1 - startChar` characters of the input from
`startChar` (clamped at the end of the input, where the final chunk's
untrimmed buffer carries the one synthesized newline) yields the stored
content followed only by trimmed whitespace. -/
theorem C7_chunk_offsets_contiguous (T : List Char) (maxChars : Nat) :
    ((chunkContent T maxChars).head?).map (fun c => c.startChar) = some 0 ∧
    List.Chain' (fun a b => b.startChar = a.endChar + 1) (chunkContent T maxChars) ∧
    ∀ c ∈ chunkContent T maxChars, ∃ w, w.all isJsWhitespace = true ∧
      (T.drop c.startChar).take (c.endChar + 1 - c.startChar) = c.content ++ w := by
  by_cases hsmall : T.length ≤ maxChars
  · have hchunk : chunkContent T maxChars
        = [⟨T, 0, T.length, estimateTokenCount T⟩] := by
      unfold chunkContent
      rw [if_pos hsmall]
    rw [hchunk]
    refine ⟨by simp, List.chain'_singleton _, ?_⟩
    intro c hc
    simp only [List.mem_singleton] at hc
    subst hc
    refine ⟨[], by decide, ?_⟩
    simp only [List.drop_zero, List.append_nil]
    exact List.take_of_length_le (by omega)
  · have hchunk := chunkContent_eq_withOffsets T maxChars hsmall
    obtain ⟨husne, huprops, husflat⟩ := buffers_top_facts T maxChars
    rw [hchunk]
    refine ⟨withOffsets_head_start 0 _ husne, ?_, ?_⟩
    · exact withOffsets_chain _ 0 (fun u hu => (huprops u hu).1)
    · refine withOffsets_slices T _ 0 ?_ (fun u hu => (huprops u hu).1)
      rw [husflat, List.drop_zero]

/-! ## Relevance ranker and truncation policy (content-limits module) -/

/-- Split into maximal whitespace-separated words, with an accumulator so the
recursion is structural (kernel-evaluable).  Models
`s.split(/\s+/)` followed by the length filter of the caller: splitting on
`\s+` can also produce empty edge tokens, but those are removed by the
`length > 2` filter applied at every call site, so they are not produced
here. -/
def wordsOfAux : List Char → List Char → List (List Char)
  | [], acc => if acc.isEmpty then [] else [acc.reverse]
  | c :: rest, acc =>
    if isJsWhitespace c then
      if acc.isEmpty then wordsOfAux rest [] else acc.reverse :: wordsOfAux rest []
    else wordsOfAux rest (c :: acc)

def wordsOf (s : List Char) : List (List Char) :=
  wordsOfAux s []

/-- Count the non-overlapping left-to-right occurrences of `pat` in `text` as
a literal word.  This is the occurrence count in the sense of the claims'
score description; it coincides with the regex match count computed by the
source exactly when `pat` contains no regex syntax characters (proved in
`regexCount_literal`).  `skip` carries the characters still to be consumed by
the previous match so that the recursion is structural. -/
def countOccurrencesAux (pat : List Char) : List Char → Nat → Nat
  | [], _ => 0
  | _ :: rest, skip + 1 => countOccurrencesAux pat rest skip
  | c :: rest, 0 =>
    if !pat.isEmpty && pat.isPrefixOf (c :: rest) then
      1 + countOccurrencesAux pat rest (pat.length - 1)
    else
      countOccurrencesAux pat rest 0

def countOccurrences (text pat : List Char) : Nat :=
  countOccurrencesAux pat text 0

/-- Substring test (used for the structural-header bonus). -/
def containsSub (text pat : List Char) : Bool :=
  match text with
  | [] => pat.isEmpty
  | c :: rest => pat.isPrefixOf (c :: rest) || containsSub rest pat

/-- The header-bonus test `/\\(title|section|chapter|subsection)\{/i` of
`findRelevantChunk`: the lowercased content must contain a backslash, one of
the four names, and an opening brace. -/
def headingBonus (content : List Char) : Bool :=
  let lower := content.map Char.toLower
  containsSub lower ('\\' :: ("title".toList ++ [obrace])) ||
  containsSub lower ('\\' :: ("section".toList ++ [obrace])) ||
  containsSub lower ('\\' :: ("chapter".toList ++ [obrace])) ||
  containsSub lower ('\\' :: ("subsection".toList ++ [obrace]))

/-- `userQuery.toLowerCase().split(/\s+/).filter(word => word.length > 2)`. -/
def queryWordsOf (userQuery : List Char) : List (List Char) :=
  (wordsOf (userQuery.map Char.toLower)).filter (fun w => 2 < w.length)

/-- The per-chunk score in the form the claims describe it: for each query
word the number of literal occurrences in the lowercased content times the
word length, plus a flat `+10` if the content carries a structural heading
marker.  The source scores by regex matching instead (`regexScore` below);
the two agree exactly on metacharacter-free tokens (`regexScore_literal`). -/
def chunkScore (queryWords : List (List Char)) (chunk : ContentChunk) : Nat :=
  let chunkText := chunk.content.map Char.toLower
  let base := queryWords.foldl
    (fun acc word => acc + countOccurrences chunkText word * word.length) 0
  if headingBonus chunk.content then base + 10 else base

/-! ### A model of `new RegExp(word, 'g')`

`findRelevantChunk` counts matches with
`(chunkText.match(new RegExp(word, 'g')) || []).length`, where `word` is a
raw query token.  We model the ECMAScript pattern fragment consisting of
plain pattern characters, the dot, and the quantifiers `* + ?` with their
lazy variants `*? +? ??` — including the `SyntaxError` thrown for a
quantifier with nothing to repeat (`"***"`, `"a**"`, `"a???"`, …).  Patterns
using the remaining syntax characters `^ $ \ ( ) [ ] | `, braces or escapes
(anchors, groups, classes, alternation, brace quantifiers) lie outside the
modelled fragment and are conservatively mapped to the error path; no
theorem below depends on their behavior — the ranker theorems assume
metacharacter-free tokens and every counterexample stays inside the faithful
part of the fragment. -/

/-- The ECMAScript `SyntaxCharacter` set `^ $ \ . * + ? ( ) [ ] { } |`. -/
def isRegexSyntaxChar (c : Char) : Bool :=
  c = '^' || c = '$' || c = '\\' || c = '.' || c = '*' || c = '+' || c = '?' ||
  c = '(' || c = ')' || c = '[' || c = ']' || c = obrace || c = cbrace || c = '|'

/-- Atoms of the modelled fragment: a literal character or the dot. -/
inductive RegexAtom
  | lit (c : Char)
  | dot
deriving DecidableEq, Repr

/-- Quantifiers: single occurrence, greedy `? * +`, lazy `?? *? +?`. -/
inductive RegexQuant
  | one
  | opt
  | star
  | plus
  | optLazy
  | starLazy
  | plusLazy
deriving DecidableEq, Repr

structure RegexPiece where
  atom : RegexAtom
  quant : RegexQuant
deriving DecidableEq, Repr

/-- Pattern parser for the fragment; `none` models a thrown `SyntaxError`
(or an out-of-fragment construct, see the section comment). -/
def regexParseAux : List Char → List RegexPiece → Option (List RegexPiece)
  | [], acc => some acc.reverse
  | c :: rest, acc =>
    if c = '.' then regexParseAux rest (⟨RegexAtom.dot, RegexQuant.one⟩ :: acc)
    else if c = '*' ∨ c = '+' ∨ c = '?' then
      match acc with
      | [] => none
      | p :: acc' =>
        match p.quant with
        | RegexQuant.one =>
          if c = '*' then regexParseAux rest (⟨p.atom, RegexQuant.star⟩ :: acc')
          else if c = '+' then regexParseAux rest (⟨p.atom, RegexQuant.plus⟩ :: acc')
          else regexParseAux rest (⟨p.atom, RegexQuant.opt⟩ :: acc')
        | RegexQuant.star =>
          if c = '?' then regexParseAux rest (⟨p.atom, RegexQuant.starLazy⟩ :: acc')
          else none
        | RegexQuant.plus =>
          if c = '?' then regexParseAux rest (⟨p.atom, RegexQuant.plusLazy⟩ :: acc')
          else none
        | RegexQuant.opt =>
          if c = '?' then regexParseAux rest (⟨p.atom, RegexQuant.optLazy⟩ :: acc')
          else none
        | _ => none
    else if isRegexSyntaxChar c then none
    else regexParseAux rest (⟨RegexAtom.lit c, RegexQuant.one⟩ :: acc)

def regexParse (pat : List Char) : Option (List RegexPiece) :=
  regexParseAux pat []

/-- Does an atom match one character?  The dot excludes line terminators. -/
def atomMatch (a : RegexAtom) (x : Char) : Bool :=
  match a with
  | RegexAtom.lit c => x = c
  | RegexAtom.dot => !(x = '\n' || x = '\r' || x = '\u2028' || x = '\u2029')

/-- Backtracking matcher for the fragment: the length of the match of
`pieces` at the start of `s` in ECMAScript order (greedy quantifiers prefer
longer, lazy ones shorter), or `none`.  Fuel `pieces.length + s.length + 1`
always suffices: every recursive call shortens the pieces or the string. -/
def matchPiecesFuel : Nat → List RegexPiece → List Char → Option Nat
  | 0, _, _ => none
  | _ + 1, [], _ => some 0
  | fuel + 1, ⟨a, q⟩ :: rest, s =>
    match q with
    | RegexQuant.one =>
      match s with
      | [] => none
      | x :: s' =>
        if atomMatch a x then (matchPiecesFuel fuel rest s').map (fun n => n + 1)
        else none
    | RegexQuant.opt =>
      match s with
      | [] => matchPiecesFuel fuel rest []
      | x :: s' =>
        if atomMatch a x then
          match matchPiecesFuel fuel rest s' with
          | some n => some (n + 1)
          | none => matchPiecesFuel fuel rest s
        else matchPiecesFuel fuel rest s
    | RegexQuant.star =>
      match s with
      | [] => matchPiecesFuel fuel rest []
      | x :: s' =>
        if atomMatch a x then
          match matchPiecesFuel fuel (⟨a, RegexQuant.star⟩ :: rest) s' with
          | some n => some (n + 1)
          | none => matchPiecesFuel fuel rest s
        else matchPiecesFuel fuel rest s
    | RegexQuant.plus =>
      match s with
      | [] => none
      | x :: s' =>
        if atomMatch a x then
          (matchPiecesFuel fuel (⟨a, RegexQuant.star⟩ :: rest) s').map (fun n => n + 1)
        else none
    | RegexQuant.optLazy =>
      match matchPiecesFuel fuel rest s with
      | some n => some n
      | none =>
        match s with
        | [] => none
        | x :: s' =>
          if atomMatch a x then (matchPiecesFuel fuel rest s').map (fun n => n + 1)
          else none
    | RegexQuant.starLazy =>
      match matchPiecesFuel fuel rest s with
      | some n => some n
      | none =>
        match s with
        | [] => none
        | x :: s' =>
          if atomMatch a x then
            (matchPiecesFuel fuel (⟨a, RegexQuant.starLazy⟩ :: rest) s').map (fun n => n + 1)
          else none
    | RegexQuant.plusLazy =>
      match s with
      | [] => none
      | x :: s' =>
        if atomMatch a x then
          (matchPiecesFuel fuel (⟨a, RegexQuant.starLazy⟩ :: rest) s').map (fun n => n + 1)
        else none

/-- Match at the start of `s`. -/
def regexMatchAt (pieces : List RegexPiece) (s : List Char) : Option Nat :=
  matchPiecesFuel (pieces.length + s.length + 1) pieces s

/-- The number of matches reported by `text.match(regex)` with the `g` flag:
scan left to right counting non-overlapping matches, advancing one position
past a zero-length match (ECMAScript `AdvanceStringIndex`). -/
def regexCountFuel : Nat → List RegexPiece → List Char → Nat
  | 0, _, _ => 0
  | fuel + 1, pieces, s =>
    match regexMatchAt pieces s with
    | some 0 =>
      match s with
      | [] => 1
      | _ :: s' => 1 + regexCountFuel fuel pieces s'
    | some (n + 1) => 1 + regexCountFuel fuel pieces (s.drop (n + 1))
    | none =>
      match s with
      | [] => 0
      | _ :: s' => regexCountFuel fuel pieces s'

def regexCount (pieces : List RegexPiece) (text : List Char) : Nat :=
  regexCountFuel (text.length + 1) pieces text

/-- Compile every query token.  In the source the `RegExp` objects are
constructed inside the scoring loop, so with at least two chunks an invalid
token throws while the first chunk is scored, before any result is produced;
compiling all tokens up front is observably the same. -/
def compileTokens : List (List Char) → Option (List (List Char × List RegexPiece))
  | [] => some []
  | w :: ws =>
    match regexParse w with
    | none => none
    | some pieces =>
      match compileTokens ws with
      | none => none
      | some rest => some ((w, pieces) :: rest)

/-- The score the source actually computes: for each compiled token the
regex match count in the lowercased content times the token length, plus the
`+10` heading bonus. -/
def regexScore (tokens : List (List Char × List RegexPiece)) (chunk : ContentChunk) : Nat :=
  let chunkText := chunk.content.map Char.toLower
  let base := tokens.foldl
    (fun acc t => acc + regexCount t.2 chunkText * t.1.length) 0
  if headingBonus chunk.content then base + 10 else base

/-- `findRelevantChunk` from the content-limits module.  The `throw` on an
empty chunk list and the `SyntaxError` escaping from `new RegExp` on an
invalid query token are modelled as `Except.error`; the single-chunk
shortcut returns that chunk before any token is compiled (as in the source);
otherwise the chunks are scored by regex matching, sorted descending by
score (JavaScript's stable sort with comparator `b.score - a.score`) and the
best is returned unless every score is 0, in which case the first chunk is
returned.  (The inner `[]` case of the sorted list is unreachable: sorting a
nonempty list yields a nonempty list; JavaScript reads index 0 directly.) -/
def findRelevantChunk (chunks : List ContentChunk) (userQuery : List Char) :
    Except (List Char) ContentChunk :=
  match chunks with
  | [] => Except.error "No chunks provided".toList
  | [c] => Except.ok c
  | c1 :: c2 :: rest =>
    let queryWords := queryWordsOf userQuery
    match compileTokens queryWords with
    | none => Except.error "Invalid regular expression".toList
    | some tokens =>
      let chunkScores := (c1 :: c2 :: rest).map
        (fun chunk => (chunk, regexScore tokens chunk))
      let sorted := sortJs (fun a b => decide (b.2 ≤ a.2)) chunkScores
      match sorted with
      | [] => Except.ok c1
      | best :: _ => if 0 < best.2 then Except.ok best.1 else Except.ok c1

/-- Result record of `intelligentTruncate`. -/
structure TruncateResult where
  content : List Char
  truncated : Bool
  originalLength : Nat
deriving DecidableEq, Repr

/-- `intelligentTruncate` from the content-limits module.  In-budget content
is returned unchanged; otherwise the content is chunked and either the
ranker-selected chunk (when a query is given) or the first chunk is returned.
JavaScript faults on `chunks[0].content` if the chunk list were empty; both
failure paths are modelled as `Except.error` (and proved unreachable). -/
def intelligentTruncate (content : List Char) (maxChars : Nat)
    (userQuery : Option (List Char)) : Except (List Char) TruncateResult :=
  if content.length ≤ maxChars then
    Except.ok ⟨content, false, content.length⟩
  else
    let chunks := chunkContent content maxChars
    match userQuery with
    | some q =>
      match findRelevantChunk chunks q with
      | Except.ok relevantChunk =>
        Except.ok ⟨relevantChunk.content, true, content.length⟩
      | Except.error e => Except.error e
    | none =>
      match chunks with
      | c :: _ => Except.ok ⟨c.content, true, content.length⟩
      | [] => Except.error "No chunks produced".toList

example :
    findRelevantChunk
      [⟨"apple banana".toList, 0, 12, 3⟩, ⟨"banana banana banana".toList, 13, 33, 5⟩]
      "banana".toList
      = Except.ok ⟨"banana banana banana".toList, 13, 33, 5⟩ := by rfl
example :
    (intelligentTruncate "ab\ncd\nef".toList 3 none).map (fun r => r.content)
      = Except.ok "ab".toList := by rfl

/-! ### Literal tokens: the regex path coincides with literal counting -/

/-- `litPieces w` is the compiled form of a metacharacter-free token: every
character is a plain single-occurrence literal atom. -/
def litPieces (w : List Char) : List RegexPiece :=
  w.map (fun c => ⟨RegexAtom.lit c, RegexQuant.one⟩)

theorem regexParseAux_literal (w : List Char)
    (h : ∀ c ∈ w, isRegexSyntaxChar c = false) :
    ∀ acc, regexParseAux w acc = some (acc.reverse ++ litPieces w) := by
  induction w with
  | nil => intro acc; simp [regexParseAux, litPieces]
  | cons c rest ih =>
    intro acc
    have hc := h c (by simp)
    have hdot : ¬ c = '.' := by
      intro hh; subst hh; simp [isRegexSyntaxChar] at hc
    have hstar : ¬ c = '*' := by
      intro hh; subst hh; simp [isRegexSyntaxChar] at hc
    have hplus : ¬ c = '+' := by
      intro hh; subst hh; simp [isRegexSyntaxChar] at hc
    have hopt : ¬ c = '?' := by
      intro hh; subst hh; simp [isRegexSyntaxChar] at hc
    have hq : ¬ (c = '*' ∨ c = '+' ∨ c = '?') := by
      intro hor
      rcases hor with hh | hh | hh
      · exact hstar hh
      · exact hplus hh
      · exact hopt hh
    unfold regexParseAux
    rw [if_neg hdot, if_neg hq, if_neg (by simp [hc])]
    rw [ih (fun c' hc' => h c' (List.mem_cons_of_mem c hc'))]
    simp [litPieces]

theorem regexParse_literal (w : List Char)
    (h : ∀ c ∈ w, isRegexSyntaxChar c = false) :
    regexParse w = some (litPieces w) := by
  unfold regexParse
  rw [regexParseAux_literal w h []]
  simp

/-- On a literal-only pattern the matcher is prefix testing: it matches with
length `w.length` exactly when `w` is a prefix of the text. -/
theorem matchPieces_literal (w : List Char) :
    ∀ (fuel : Nat) (s : List Char), w.length + s.length < fuel →
    matchPiecesFuel fuel (litPieces w) s
      = (if w.isPrefixOf s then some w.length else none) := by
  induction w with
  | nil =>
    intro fuel s hfuel
    cases fuel with
    | zero => omega
    | succ m => simp [litPieces, matchPiecesFuel, List.isPrefixOf]
  | cons c w' ih =>
    intro fuel s hfuel
    have hlp : litPieces (c :: w')
        = ⟨RegexAtom.lit c, RegexQuant.one⟩ :: litPieces w' := rfl
    cases fuel with
    | zero => omega
    | succ m =>
      cases s with
      | nil =>
        rw [hlp]
        simp [matchPiecesFuel, List.isPrefixOf]
      | cons x s' =>
        have ihs := ih m s' (by
          simp only [List.length_cons] at hfuel ⊢
          omega)
        rw [hlp]
        simp only [matchPiecesFuel, atomMatch]
        by_cases hxc : x = c
        · subst hxc
          rw [if_pos (by simp)]
          rw [ihs]
          by_cases hp : w'.isPrefixOf s' = true
          · simp [List.isPrefixOf, hp]
          · simp only [Bool.not_eq_true] at hp
            simp [List.isPrefixOf, hp]
        · rw [if_neg (by simpa using hxc)]
          have hbeq : (c == x) = false := by
            rw [beq_eq_false_iff_ne]
            intro hh
            exact hxc hh.symm
          have hnp : (c :: w').isPrefixOf (x :: s') = false := by
            show ((c == x) && w'.isPrefixOf s') = false
            rw [hbeq, Bool.false_and]
          simp [hnp]

/-- Skipping characters one at a time equals dropping them up front. -/
theorem countOccurrencesAux_skip (pat : List Char) :
    ∀ (text : List Char) (skip : Nat),
    countOccurrencesAux pat text skip
      = countOccurrencesAux pat (text.drop skip) 0 := by
  intro text
  induction text with
  | nil => intro skip; simp [countOccurrencesAux]
  | cons c rest ih =>
    intro skip
    cases skip with
    | zero => simp
    | succ k =>
      show countOccurrencesAux pat rest k = _
      rw [ih k, List.drop_succ_cons]

/-- On a nonempty literal-only pattern the regex match count is the literal
non-overlapping occurrence count. -/
theorem regexCount_literal (a : Char) (as : List Char) :
    ∀ (fuel : Nat) (text : List Char), text.length < fuel →
    regexCountFuel fuel (litPieces (a :: as)) text
      = countOccurrencesAux (a :: as) text 0 := by
  intro fuel
  induction fuel with
  | zero => intro text hlen; omega
  | succ m ih =>
    intro text hlen
    have hre : regexMatchAt (litPieces (a :: as)) text
        = (if (a :: as).isPrefixOf text then some (a :: as).length else none) := by
      unfold regexMatchAt
      exact matchPieces_literal (a :: as) _ text (by simp [litPieces])
    simp only [regexCountFuel, hre]
    by_cases hpre : (a :: as).isPrefixOf text = true
    · rw [if_pos hpre]
      cases text with
      | nil => simp [List.isPrefixOf] at hpre
      | cons c rest =>
        have hlen' : (rest.drop as.length).length < m := by
          have hd : (rest.drop as.length).length = rest.length - as.length :=
            List.length_drop as.length rest
          simp only [List.length_cons] at hlen
          omega
        have hrhs : countOccurrencesAux (a :: as) (c :: rest) 0
            = 1 + countOccurrencesAux (a :: as) (rest.drop as.length) 0 := by
          simp only [countOccurrencesAux]
          rw [if_pos (by simp [hpre])]
          rw [countOccurrencesAux_skip (a :: as) rest ((a :: as).length - 1)]
          simp
        rw [hrhs]
        show 1 + regexCountFuel m (litPieces (a :: as)) (rest.drop as.length)
            = 1 + countOccurrencesAux (a :: as) (rest.drop as.length) 0
        rw [ih (rest.drop as.length) hlen']
    · rw [if_neg hpre]
      cases text with
      | nil => simp [countOccurrencesAux]
      | cons c rest =>
        have hlen' : rest.length < m := by
          simp only [List.length_cons] at hlen
          omega
        show regexCountFuel m (litPieces (a :: as)) rest
            = countOccurrencesAux (a :: as) (c :: rest) 0
        rw [ih rest hlen']
        simp only [countOccurrencesAux]
        rw [if_neg (by simp [hpre])]

/-- The regex count of a compiled metacharacter-free token equals the
literal occurrence count used by the claims. -/
theorem regexCount_eq_countOccurrences (w : List Char) (hw : w ≠ [])
    (text : List Char) :
    regexCount (litPieces w) text = countOccurrences text w := by
  cases w with
  | nil => exact absurd rfl hw
  | cons a as =>
    unfold regexCount countOccurrences
    exact regexCount_literal a as (text.length + 1) text (by omega)

theorem foldl_add_congr {α : Type} (f g : α → Nat) (l : List α)
    (h : ∀ x ∈ l, f x = g x) :
    ∀ b : Nat, l.foldl (fun acc x => acc + f x) b
      = l.foldl (fun acc x => acc + g x) b := by
  induction l with
  | nil => intro b; rfl
  | cons x xs ih =>
    intro b
    simp only [List.foldl_cons]
    rw [h x (by simp)]
    exact ih (fun y hy => h y (List.mem_cons_of_mem x hy)) (b + g x)

/-- On metacharacter-free (hence literal) tokens the source's regex score is
exactly the literal score the claims describe. -/
theorem regexScore_literal (qws : List (List Char))
    (hne : ∀ w ∈ qws, w ≠ []) (chunk : ContentChunk) :
    regexScore (qws.map (fun w => (w, litPieces w))) chunk
      = chunkScore qws chunk := by
  have hbase : (qws.map (fun w => (w, litPieces w))).foldl
      (fun acc t => acc + regexCount t.2 (chunk.content.map Char.toLower) * t.1.length) 0
      = qws.foldl
        (fun acc word =>
          acc + countOccurrences (chunk.content.map Char.toLower) word * word.length) 0 := by
    rw [List.foldl_map]
    exact foldl_add_congr
      (fun w => regexCount (litPieces w) (chunk.content.map Char.toLower) * w.length)
      (fun w => countOccurrences (chunk.content.map Char.toLower) w * w.length)
      qws
      (fun w hw => by
        show regexCount (litPieces w) (chunk.content.map Char.toLower) * w.length
            = countOccurrences (chunk.content.map Char.toLower) w * w.length
        rw [regexCount_eq_countOccurrences w (hne w hw) (chunk.content.map Char.toLower)])
      0
  show (if headingBonus chunk.content then
      (qws.map (fun w => (w, litPieces w))).foldl
        (fun acc t => acc + regexCount t.2 (chunk.content.map Char.toLower) * t.1.length) 0 + 10
    else
      (qws.map (fun w => (w, litPieces w))).foldl
        (fun acc t => acc + regexCount t.2 (chunk.content.map Char.toLower) * t.1.length) 0)
    = (if headingBonus chunk.content then
      qws.foldl
        (fun acc word =>
          acc + countOccurrences (chunk.content.map Char.toLower) word * word.length) 0 + 10
    else
      qws.foldl
        (fun acc word =>
          acc + countOccurrences (chunk.content.map Char.toLower) word * word.length) 0)
  rw [hbase]

/-- Tokens that survive the `length > 2` filter survive emptiness checks. -/
theorem queryWords_ne_nil (q : List Char) : ∀ w ∈ queryWordsOf q, w ≠ [] := by
  intro w hw
  unfold queryWordsOf at hw
  rw [List.mem_filter] at hw
  have h2 : 2 < w.length := by simpa using hw.2
  intro hnil
  subst hnil
  simp at h2

theorem compileTokens_literal (qws : List (List Char))
    (h : ∀ w ∈ qws, ∀ c ∈ w, isRegexSyntaxChar c = false) :
    compileTokens qws = some (qws.map (fun w => (w, litPieces w))) := by
  induction qws with
  | nil => rfl
  | cons w ws ih =>
    have h1 := regexParse_literal w (h w (by simp))
    have h2 := ih (fun w' hw' => h w' (List.mem_cons_of_mem w hw'))
    unfold compileTokens
    rw [h1, h2]
    rfl

/-- Specification of `findRelevantChunk` on a nonempty chunk list whose
query tokens are free of regex syntax characters: it succeeds, returns a
member whose (literal) score is maximal, and falls back to the first chunk
when every score is zero. -/
theorem findRelevantChunk_spec (chunks : List ContentChunk) (userQuery : List Char)
    (h : chunks ≠ [])
    (hplain : ∀ w ∈ queryWordsOf userQuery, ∀ c ∈ w, isRegexSyntaxChar c = false) :
    ∃ c, findRelevantChunk chunks userQuery = Except.ok c ∧ c ∈ chunks ∧
      (∀ c' ∈ chunks, chunkScore (queryWordsOf userQuery) c'
        ≤ chunkScore (queryWordsOf userQuery) c) ∧
      ((∀ c' ∈ chunks, chunkScore (queryWordsOf userQuery) c' = 0) →
        chunks.head? = some c) := by
  match chunks with
  | [] => exact absurd rfl h
  | [c] =>
    refine ⟨c, rfl, by simp, ?_, by simp⟩
    intro c' hc'
    simp only [List.mem_singleton] at hc'
    subst hc'
    exact le_refl _
  | c1 :: c2 :: rest =>
    have hcompile : compileTokens (queryWordsOf userQuery)
        = some ((queryWordsOf userQuery).map (fun w => (w, litPieces w))) :=
      compileTokens_literal _ hplain
    have hscore : ∀ chunk,
        regexScore ((queryWordsOf userQuery).map (fun w => (w, litPieces w))) chunk
          = chunkScore (queryWordsOf userQuery) chunk :=
      fun chunk => regexScore_literal _ (queryWords_ne_nil userQuery) chunk
    set L := (c1 :: c2 :: rest).map
      (fun chunk => (chunk, chunkScore (queryWordsOf userQuery) chunk)) with hL
    set le : ContentChunk × Nat → ContentChunk × Nat → Bool :=
      fun a b => decide (b.2 ≤ a.2) with hle
    have hmapeq : (c1 :: c2 :: rest).map
        (fun chunk => (chunk,
          regexScore ((queryWordsOf userQuery).map (fun w => (w, litPieces w))) chunk))
        = L := by
      simp only [hscore]
    have hperm : List.Perm (sortJs le L) L := sortJs_perm le L
    have hLne : L ≠ [] := by simp [hL]
    have hsne : sortJs le L ≠ [] := by
      intro hnil
      rw [hnil] at hperm
      exact hLne (hperm.symm.eq_nil)
    have hpair : (sortJs le L).Pairwise (fun x y => le x y = true) :=
      sortJs_pairwise le
        (fun a b => by
          rcases Nat.le_total b.2 a.2 with h' | h'
          · exact Or.inl (by simp [hle, h'])
          · exact Or.inr (by simp [hle, h']))
        (fun a b c hab hbc => by
          simp only [hle, decide_eq_true_eq] at hab hbc ⊢
          omega)
        L
    obtain ⟨best, tail, hsorted⟩ := List.exists_cons_of_ne_nil hsne
    -- every listed score is bounded by the best score
    have hmax : ∀ p ∈ L, p.2 ≤ best.2 := by
      intro p hp
      have hp' : p ∈ sortJs le L := hperm.mem_iff.mpr hp
      rw [hsorted] at hp'
      rcases List.mem_cons.mp hp' with hp' | hp'
      · subst hp'; exact le_refl _
      · rw [hsorted] at hpair
        rw [List.pairwise_cons] at hpair
        have := hpair.1 p hp'
        simpa [hle] using this
    have hbestL : best ∈ L := by
      have : best ∈ sortJs le L := by rw [hsorted]; simp
      exact hperm.mem_iff.mp this
    obtain ⟨cb, hcb, hcbeq⟩ := List.mem_map.mp hbestL
    have hbest1 : best.1 = cb := by rw [← hcbeq]
    have hbest2 : best.2 = chunkScore (queryWordsOf userQuery) cb := by rw [← hcbeq]
    have hrfc : findRelevantChunk (c1 :: c2 :: rest) userQuery
        = (if 0 < best.2 then Except.ok best.1 else Except.ok c1) := by
      have h0 : findRelevantChunk (c1 :: c2 :: rest) userQuery
          = (match compileTokens (queryWordsOf userQuery) with
             | none => Except.error "Invalid regular expression".toList
             | some tokens =>
               match sortJs le ((c1 :: c2 :: rest).map
                   (fun chunk => (chunk, regexScore tokens chunk))) with
               | [] => Except.ok c1
               | b :: _ => if 0 < b.2 then Except.ok b.1 else Except.ok c1) := rfl
      rw [h0, hcompile]
      show (match sortJs le ((c1 :: c2 :: rest).map
             (fun chunk => (chunk,
               regexScore ((queryWordsOf userQuery).map
                 (fun w => (w, litPieces w))) chunk))) with
           | [] => Except.ok c1
           | b :: _ => if 0 < b.2 then Except.ok b.1 else Except.ok c1) = _
      rw [hmapeq, hsorted]
    by_cases hpos : 0 < best.2
    · rw [if_pos hpos] at hrfc
      refine ⟨best.1, hrfc, by rw [hbest1]; exact hcb, ?_, ?_⟩
      · intro c' hc'
        have : (c', chunkScore (queryWordsOf userQuery) c') ∈ L :=
          List.mem_map.mpr ⟨c', hc', rfl⟩
        have := hmax _ this
        rw [hbest1, ← hbest2]
        exact this
      · intro hall
        exfalso
        have := hall cb hcb
        rw [← hbest2] at this
        omega
    · rw [if_neg hpos] at hrfc
      refine ⟨c1, hrfc, by simp, ?_, by simp⟩
      intro c' hc'
      have : (c', chunkScore (queryWordsOf userQuery) c') ∈ L :=
        List.mem_map.mpr ⟨c', hc', rfl⟩
      have h1 := hmax _ this
      omega

/-- C6: for every non-empty chunk list whose query tokens (whitespace-split,
lowercased, length > 2) contain no regex syntax character, findRelevantChunk
returns a chunk whose literal frequency-weighted score (occurrences times
token length, plus 10 for a structural heading marker) is maximal over all
chunks, and falls back to the first chunk when every score is zero.  The
restriction to metacharacter-free tokens is necessary: the source scores by
`new RegExp(word, 'g')` matching, which diverges from literal counting on
metacharacter tokens and throws on invalid ones (`C6_ranker_counterexample`). -/
theorem C6_ranker_max_score (chunks : List ContentChunk) (userQuery : List Char)
    (h : chunks ≠ [])
    (hplain : ∀ w ∈ queryWordsOf userQuery, ∀ c ∈ w, isRegexSyntaxChar c = false) :
    ∃ c, findRelevantChunk chunks userQuery = Except.ok c ∧ c ∈ chunks ∧
      (∀ c' ∈ chunks, chunkScore (queryWordsOf userQuery) c'
        ≤ chunkScore (queryWordsOf userQuery) c) ∧
      ((∀ c' ∈ chunks, chunkScore (queryWordsOf userQuery) c' = 0) →
        chunks.head? = some c) :=
  findRelevantChunk_spec chunks userQuery h hplain

/-- Counterexample to C6 as stated (for every query string): on chunks
`["axc axc axc", "a.c"]` and query `"a.c"` the token is compiled as a regular
expression in which `.` matches any character, so the first chunk scores
3 matches × 3 = 9 and is returned — yet its literal occurrence score is 0
while the second chunk's is 3, refuting maximality of the literal score.
And the query `"***"` is an invalid pattern: `new RegExp` throws a
SyntaxError, so no chunk is returned at all. -/
theorem C6_ranker_counterexample :
    findRelevantChunk
        [⟨"axc axc axc".toList, 0, 11, 1⟩, ⟨"a.c".toList, 12, 15, 1⟩]
        "a.c".toList
      = Except.ok ⟨"axc axc axc".toList, 0, 11, 1⟩ ∧
    chunkScore (queryWordsOf "a.c".toList) ⟨"axc axc axc".toList, 0, 11, 1⟩ = 0 ∧
    chunkScore (queryWordsOf "a.c".toList) ⟨"a.c".toList, 12, 15, 1⟩ = 3 ∧
    findRelevantChunk
        [⟨"axc axc axc".toList, 0, 11, 1⟩, ⟨"a.c".toList, 12, 15, 1⟩]
        "***".toList
      = Except.error "Invalid regular expression".toList :=
  ⟨rfl, rfl, rfl, rfl⟩

/-- Witness for C6 at the claim's own example: chunks
`["apple banana", "banana banana banana"]`, query `"banana"` (a
metacharacter-free token), and the returned maximal chunk is the second. -/
theorem C6_ranker_max_score_witness :
    (∃ c, findRelevantChunk
        [⟨"apple banana".toList, 0, 12, 3⟩, ⟨"banana banana banana".toList, 13, 33, 5⟩]
        "banana".toList = Except.ok c ∧
      c ∈ [(⟨"apple banana".toList, 0, 12, 3⟩ : ContentChunk),
           ⟨"banana banana banana".toList, 13, 33, 5⟩] ∧
      (∀ c' ∈ [(⟨"apple banana".toList, 0, 12, 3⟩ : ContentChunk),
               ⟨"banana banana banana".toList, 13, 33, 5⟩],
        chunkScore (queryWordsOf "banana".toList) c'
          ≤ chunkScore (queryWordsOf "banana".toList) c) ∧
      ((∀ c' ∈ [(⟨"apple banana".toList, 0, 12, 3⟩ : ContentChunk),
                ⟨"banana banana banana".toList, 13, 33, 5⟩],
        chunkScore (queryWordsOf "banana".toList) c' = 0) →
        [(⟨"apple banana".toList, 0, 12, 3⟩ : ContentChunk),
         ⟨"banana banana banana".toList, 13, 33, 5⟩].head? = some c)) ∧
    findRelevantChunk
        [⟨"apple banana".toList, 0, 12, 3⟩, ⟨"banana banana banana".toList, 13, 33, 5⟩]
        "banana".toList
      = Except.ok ⟨"banana banana banana".toList, 13, 33, 5⟩ :=
  ⟨C6_ranker_max_score
      [⟨"apple banana".toList, 0, 12, 3⟩, ⟨"banana banana banana".toList, 13, 33, 5⟩]
      "banana".toList (by decide) (by decide),
   rfl⟩

/-- C4: whenever every token of the supplied query (if any) is free of regex
syntax characters, intelligentTruncate returns a result without an error; on
over-budget content the result has truncated = true, originalLength equal to
the content length, and content equal to the content of one chunk of
chunkContent — the ranker-selected chunk when a query is given, otherwise the
first chunk.  The restriction on the query is necessary: an invalid token
makes `new RegExp` throw inside the ranker, and the exception escapes
intelligentTruncate (`C4_truncation_counterexample`). -/
theorem C4_truncation_total (content : List Char) (maxChars : Nat)
    (userQuery : Option (List Char))
    (hq : ∀ q, userQuery = some q → ∀ w ∈ queryWordsOf q, ∀ c ∈ w,
      isRegexSyntaxChar c = false) :
    ∃ r : TruncateResult,
      intelligentTruncate content maxChars userQuery = Except.ok r ∧
      (maxChars < content.length →
        r.truncated = true ∧
        r.originalLength = content.length ∧
        ∃ ch ∈ chunkContent content maxChars, r.content = ch.content ∧
          (userQuery = none → (chunkContent content maxChars).head? = some ch) ∧
          (∀ q, userQuery = some q →
            findRelevantChunk (chunkContent content maxChars) q = Except.ok ch)) := by
  by_cases hle : content.length ≤ maxChars
  · refine ⟨⟨content, false, content.length⟩, ?_, ?_⟩
    · unfold intelligentTruncate
      rw [if_pos hle]
    · intro hgtc
      omega
  · have hne : chunkContent content maxChars ≠ [] := chunkContent_ne_nil content maxChars
    cases userQuery with
    | none =>
      obtain ⟨c, cs, hcc⟩ := List.exists_cons_of_ne_nil hne
      refine ⟨⟨c.content, true, content.length⟩, ?_, ?_⟩
      · unfold intelligentTruncate
        rw [if_neg hle]
        show (match chunkContent content maxChars with
              | c :: _ => Except.ok (⟨c.content, true, content.length⟩ : TruncateResult)
              | [] => Except.error "No chunks produced".toList) = _
        rw [hcc]
      · intro hgtc
        refine ⟨rfl, rfl, c, by rw [hcc]; exact List.mem_cons_self c cs, rfl, ?_, ?_⟩
        · intro hn
          rw [hcc]
          rfl
        · intro q hqe
          cases hqe
    | some q =>
      have hplain := hq q rfl
      obtain ⟨c, hok, hmem, hbound, hzero⟩ :=
        findRelevantChunk_spec (chunkContent content maxChars) q hne hplain
      refine ⟨⟨c.content, true, content.length⟩, ?_, ?_⟩
      · unfold intelligentTruncate
        rw [if_neg hle]
        show (match findRelevantChunk (chunkContent content maxChars) q with
              | Except.ok relevantChunk =>
                Except.ok (⟨relevantChunk.content, true, content.length⟩ : TruncateResult)
              | Except.error e => Except.error e) = _
        rw [hok]
      · intro hgtc
        refine ⟨rfl, rfl, c, hmem, rfl, ?_, ?_⟩
        · intro hn
          cases hn
        · intro q' hqe
          injection hqe with hq2
          subst hq2
          exact hok

/-- Counterexample to C4 as stated (for every optional query): on content
`"aaaa\nbbbb"` with maxChars 5 the chunker produces two chunks, so the ranker
compiles the query token; `"***"` is an invalid pattern (a quantifier with
nothing to repeat), `new RegExp` throws, and intelligentTruncate does not
return a result. -/
theorem C4_truncation_counterexample :
    intelligentTruncate "aaaa\nbbbb".toList 5 (some "***".toList)
      = Except.error "Invalid regular expression".toList :=
  rfl

/-- Witness for C4 at a concrete over-budget input with a well-formed query:
content `"ab\ncd\nef"`, maxChars 3, query `"banana"`. -/
theorem C4_truncation_total_witness :
    ∃ r : TruncateResult,
      intelligentTruncate "ab\ncd\nef".toList 3 (some "banana".toList) = Except.ok r ∧
      (3 < "ab\ncd\nef".toList.length →
        r.truncated = true ∧
        r.originalLength = "ab\ncd\nef".toList.length ∧
        ∃ ch ∈ chunkContent "ab\ncd\nef".toList 3, r.content = ch.content ∧
          (some "banana".toList = none →
            (chunkContent "ab\ncd\nef".toList 3).head? = some ch) ∧
          (∀ q, some "banana".toList = some q →
            findRelevantChunk (chunkContent "ab\ncd\nef".toList 3) q = Except.ok ch)) :=
  C4_truncation_total "ab\ncd\nef".toList 3 (some "banana".toList)
    (fun q hqe => by
      injection hqe with hq2
      subst hq2
      decide)

/-! ## Diff engine (`src/utils/formatPreservation.ts`) -/

/-- Diff line kind. -/
inductive DiffKind
  | added
  | removed
  | unchanged
deriving DecidableEq, Repr, Inhabited

/-- `DiffLine` from `formatPreservation.ts` (`type` is called `kind` values
kept as `added`/`removed`/`unchanged`). -/
structure DiffLine where
  content : List Char
  type : DiffKind
  oldLineNumber : Option Nat
  newLineNumber : Option Nat
deriving DecidableEq, Repr, Inhabited

/-- `Change` objects of the external npm `diff` package (`diffLines`). -/
structure Change where
  value : List Char
  added : Bool
  removed : Bool
deriving DecidableEq, Repr

/-- Longest-common-subsequence length over line lists, with explicit fuel so
that the definition is structurally recursive and kernel-evaluable.  Fuel
`xs.length + ys.length` always suffices (every call consumes one unit and one
list element). -/
def lcsLenFuel : Nat → List (List Char) → List (List Char) → Nat
  | 0, _, _ => 0
  | _ + 1, [], _ => 0
  | _ + 1, _, [] => 0
  | fuel + 1, a :: as, b :: bs =>
    if a = b then 1 + lcsLenFuel fuel as bs
    else max (lcsLenFuel fuel as (b :: bs)) (lcsLenFuel fuel (a :: as) bs)

def lcsLen (xs ys : List (List Char)) : Nat :=
  lcsLenFuel (xs.length + ys.length) xs ys

/-- Modelled from the spec: the external line-diff primitive (the npm `diff`
package's `diffLines`), which is not part of this repository's sources,
"a standard line-oriented longest-common-subsequence-style edit script".
One `Change` per line, each `value` carrying the line with its newline;
removals are emitted before insertions at a divergence point.  Fuel as in
`lcsLenFuel`. -/
def diffOpsFuel : Nat → List (List Char) → List (List Char) → List Change
  | 0, _, _ => []
  | _ + 1, [], [] => []
  | fuel + 1, [], b :: bs => ⟨b ++ [nl], true, false⟩ :: diffOpsFuel fuel [] bs
  | fuel + 1, a :: as, [] => ⟨a ++ [nl], false, true⟩ :: diffOpsFuel fuel as []
  | fuel + 1, a :: as, b :: bs =>
    if a = b then ⟨a ++ [nl], false, false⟩ :: diffOpsFuel fuel as bs
    else if lcsLen (a :: as) bs ≤ lcsLen as (b :: bs) then
      ⟨a ++ [nl], false, true⟩ :: diffOpsFuel fuel as (b :: bs)
    else
      ⟨b ++ [nl], true, false⟩ :: diffOpsFuel fuel (a :: as) bs

def diffLines (original modified : List Char) : List Change :=
  let xs := splitLines original
  let ys := splitLines modified
  diffOpsFuel (xs.length + ys.length) xs ys

/-- `generateDiff` from `formatPreservation.ts`: split each change block
into lines, drop a single trailing empty line produced by a value ending in
`'\n'`, and tag lines with independently advancing 1-based line counters. -/
def generateDiff (original modified : List Char) : List DiffLine :=
  let changes := diffLines original modified
  (changes.foldl
    (fun (acc : List DiffLine × Nat × Nat) change =>
      let lines := splitLines change.value
      let lines := if lines.getLast? = some [] then lines.dropLast else lines
      lines.foldl
        (fun (st : List DiffLine × Nat × Nat) line =>
          if change.added then
            (st.1 ++ [⟨line, DiffKind.added, none, some st.2.2⟩], st.2.1, st.2.2 + 1)
          else if change.removed then
            (st.1 ++ [⟨line, DiffKind.removed, some st.2.1, none⟩], st.2.1 + 1, st.2.2)
          else
            (st.1 ++ [⟨line, DiffKind.unchanged, some st.2.1, some st.2.2⟩],
              st.2.1 + 1, st.2.2 + 1))
        acc)
    ([], 1, 1)).1

example :
    (generateDiff "x\ny".toList "x\nq\ny".toList).map
        (fun l => (l.content, l.type, l.oldLineNumber, l.newLineNumber))
      = [("x".toList, DiffKind.unchanged, some 1, some 1),
         ("q".toList, DiffKind.added, none, some 2),
         ("y".toList, DiffKind.unchanged, some 2, some 3)] := by decide

/-- The synthetic ellipsis separator line (no line numbers). -/
def ellipsisLine : DiffLine := ⟨"...".toList, DiffKind.unchanged, none, none⟩

/-- Default used to model JavaScript array indexing (never hit in-range). -/
def defaultDiffLine : DiffLine := ⟨[], DiffKind.unchanged, none, none⟩

/-- The indices of changed (added or removed) lines, in order. -/
def changedLineIndices (allDiffLines : List DiffLine) : List Nat :=
  ((allDiffLines.enum).filter
    (fun p => decide (p.2.type = DiffKind.added) || decide (p.2.type = DiffKind.removed))).map
    (fun p => p.1)

/-- Lines of one merged range, `[start, end]` inclusive. -/
def sliceLines (all : List DiffLine) (r : Nat × Nat) : List DiffLine :=
  (List.range' r.1 (r.2 + 1 - r.1)).map (fun idx => all.getD idx defaultDiffLine)

/-- Emit the merged ranges, separating consecutive ranges by the ellipsis
line (the JavaScript loop pushes the separator before every non-first
range). -/
def emitRanges (all : List DiffLine) : List (Nat × Nat) → List DiffLine
  | [] => []
  | [r] => sliceLines all r
  | r :: r2 :: rest => sliceLines all r ++ ellipsisLine :: emitRanges all (r2 :: rest)

/-- One step of the merge loop: mutate the last range's end if the incoming
range overlaps or is adjacent, otherwise append it. -/
def mergeRangesStep (acc : List (Nat × Nat)) (r : Nat × Nat) : List (Nat × Nat) :=
  match acc.getLast? with
  | none => [r]
  | some last =>
    if r.1 ≤ last.2 + 1 then acc.dropLast ++ [(last.1, max last.2 r.2)]
    else acc ++ [r]

/-- The compression pass of `generateContextualDiff`, operating on an
already-computed full diff: collect changed line indices, form
context windows clipped to the array bounds, sort and merge them, and emit
with ellipsis separators.  If nothing changed, the full diff is returned. -/
def contextualCore (allDiffLines : List DiffLine) (contextLines : Nat) : List DiffLine :=
  let changed := changedLineIndices allDiffLines
  if changed.isEmpty then allDiffLines
  else
    let ranges := changed.map
      (fun ci => (ci - contextLines, min (allDiffLines.length - 1) (ci + contextLines)))
    let sortedRanges := sortJs (fun a b => decide (a.1 ≤ b.1)) ranges
    let mergedRanges := sortedRanges.foldl mergeRangesStep []
    emitRanges allDiffLines mergedRanges

/-- `generateContextualDiff` from `formatPreservation.ts`. -/
def generateContextualDiff (original modified : List Char) (contextLines : Nat) :
    List DiffLine :=
  contextualCore (generateDiff original modified) contextLines

/-- Members of `changedLineIndices` are in-range indices of changed lines. -/
theorem changedLineIndices_mem (all : List DiffLine) (j : Nat)
    (h : j ∈ changedLineIndices all) :
    j < all.length ∧
    ((all.getD j defaultDiffLine).type = DiffKind.added ∨
      (all.getD j defaultDiffLine).type = DiffKind.removed) := by
  unfold changedLineIndices at h
  obtain ⟨p, hp, hpj⟩ := List.mem_map.mp h
  rw [List.mem_filter] at hp
  obtain ⟨hpe, hpchanged⟩ := hp
  obtain ⟨i, line⟩ := p
  simp only at hpj
  subst hpj
  obtain ⟨hlt, heq⟩ := List.mem_enum hpe
  have hgetD : all.getD i defaultDiffLine = line := by
    rw [List.getD_eq_getElem?_getD, List.getElem?_eq_getElem hlt]
    simp [heq]
  rw [hgetD]
  refine ⟨hlt, ?_⟩
  simp only [Bool.or_eq_true, decide_eq_true_eq] at hpchanged
  exact hpchanged

/-- Compression with `contextLines = 0` of a diff with exactly one changed
line yields exactly that line. -/
theorem contextualCore_single (all : List DiffLine) (i : Nat)
    (h : changedLineIndices all = [i]) :
    i < all.length ∧
    contextualCore all 0 = [all.getD i defaultDiffLine] ∧
    ((all.getD i defaultDiffLine).type = DiffKind.added ∨
      (all.getD i defaultDiffLine).type = DiffKind.removed) := by
  have hmem := changedLineIndices_mem all i (by rw [h]; simp)
  obtain ⟨hlt, hkind⟩ := hmem
  refine ⟨hlt, ?_, hkind⟩
  unfold contextualCore
  rw [h]
  simp only [List.isEmpty_cons, Bool.false_eq_true, if_false, List.map_cons, List.map_nil,
    Nat.sub_zero, Nat.add_zero]
  have hmin : min (all.length - 1) i = i := by omega
  rw [hmin]
  have hsort : sortJs (fun a b => decide (a.1 ≤ b.1)) [((i : Nat), (i : Nat))] = [(i, i)] := rfl
  rw [hsort]
  have hmerge : List.foldl mergeRangesStep [] [((i : Nat), (i : Nat))] = [(i, i)] := rfl
  rw [hmerge]
  unfold emitRanges sliceLines
  have hone : i + 1 - i = 1 := by omega
  rw [hone, List.range'_one]
  simp

/-- C8 (confirmed): when the full diff of `(original, modified)` has exactly
one changed line (at index `i`), `generateContextualDiff original modified 0`
is exactly that single changed line: no context lines and no `"..."`
ellipsis marker. -/
theorem C8_contextual_diff_single (original modified : List Char) (i : Nat)
    (h : changedLineIndices (generateDiff original modified) = [i]) :
    i < (generateDiff original modified).length ∧
    generateContextualDiff original modified 0
      = [(generateDiff original modified).getD i defaultDiffLine] ∧
    (((generateDiff original modified).getD i defaultDiffLine).type = DiffKind.added ∨
      ((generateDiff original modified).getD i defaultDiffLine).type = DiffKind.removed) :=
  contextualCore_single (generateDiff original modified) i h

/-- Witness for C8: `"x\ny"` against `"x\nq\ny"` has exactly one changed line
(the added `"q"` at diff index 1), and the contextual diff at zero context is
exactly that line. -/
theorem C8_contextual_diff_single_witness :
    1 < (generateDiff "x\ny".toList "x\nq\ny".toList).length ∧
    generateContextualDiff "x\ny".toList "x\nq\ny".toList 0
      = [(generateDiff "x\ny".toList "x\nq\ny".toList).getD 1 defaultDiffLine] ∧
    (((generateDiff "x\ny".toList "x\nq\ny".toList).getD 1 defaultDiffLine).type
        = DiffKind.added ∨
      ((generateDiff "x\ny".toList "x\nq\ny".toList).getD 1 defaultDiffLine).type
        = DiffKind.removed) :=
  C8_contextual_diff_single "x\ny".toList "x\nq\ny".toList 1 (by decide)

/-! ## Offset reconciler (selection handling in the editor component) -/

/-- JavaScript `String.prototype.indexOf` for a search string: the least
index `≥ i` at which `pat` occurs in the remaining text `s` (which is the
suffix of the document starting at `i`); `none` models `-1`. -/
def indexOfCore (pat : List Char) : List Char → Nat → Option Nat
  | [], i => if pat.isEmpty then some i else none
  | c :: rest, i =>
    if pat.isPrefixOf (c :: rest) then some i else indexOfCore pat rest (i + 1)

/-- `doc.indexOf(pat)`. -/
def indexOfSub (doc pat : List Char) : Option Nat :=
  indexOfCore pat doc 0

/-- `doc.indexOf(pat, from)`: search from absolute position `from` onward. -/
def indexOfFrom (doc pat : List Char) (start : Nat) : Option Nat :=
  indexOfCore pat (doc.drop start) start

/-- The raw-text selection-to-offset logic of the editor component
(`handleSelection`, windowed raw-text branch): exact substring match first,
then the line-anchored fallback (first line / last line), then the
word-anchored fallback, defaulting to `(0, cleanText.length)`. -/
def reconcileOffsets (documentText cleanText : List Char) : Nat × Nat :=
  match indexOfSub documentText cleanText with
  | some exactMatch => (exactMatch, exactMatch + cleanText.length)
  | none =>
    let cleanLines := (splitLines cleanText).filter (fun l => !(trimJs l).isEmpty)
    match cleanLines with
    | [] => (0, cleanText.length)
    | f :: fs =>
      let firstLine := trimJs f
      let lastLine := trimJs ((f :: fs).getLast (by simp))
      match indexOfSub documentText firstLine with
      | some firstLineIndex =>
        if 1 < (f :: fs).length ∧ lastLine ≠ firstLine then
          match indexOfFrom documentText lastLine firstLineIndex with
          | some lastLineIndex => (firstLineIndex, lastLineIndex + lastLine.length)
          | none => (firstLineIndex, firstLineIndex + cleanText.length)
        else (firstLineIndex, firstLineIndex + firstLine.length)
      | none =>
        let words := (wordsOf firstLine).filter (fun w => 2 < w.length)
        match words with
        | [] => (0, cleanText.length)
        | w :: _ =>
          match indexOfSub documentText w with
          | some wordIndex => (wordIndex, wordIndex + cleanText.length)
          | none => (0, cleanText.length)

/-- `pat` occurs in `doc` at position `i`. -/
def occursAt (doc pat : List Char) (i : Nat) : Prop :=
  pat.isPrefixOf (doc.drop i) = true

instance (doc pat : List Char) (i : Nat) : Decidable (occursAt doc pat i) := by
  unfold occursAt
  infer_instance

/-- `indexOfCore` finds the least occurrence: if `pat` occurs at `i` and at
no earlier position, the scan starting at position `k ≤ i` returns `i`. -/
theorem indexOfCore_finds (doc pat : List Char) (i : Nat)
    (hocc : occursAt doc pat i) (hleast : ∀ j, j < i → ¬ occursAt doc pat j) :
    ∀ k, k ≤ i → indexOfCore pat (doc.drop k) k = some i := by
  suffices hsuff : ∀ n k, k ≤ i → i - k = n → indexOfCore pat (doc.drop k) k = some i by
    intro k hk
    exact hsuff (i - k) k hk rfl
  intro n
  induction n with
  | zero =>
    intro k hk hn
    have hki : k = i := by omega
    subst hki
    unfold occursAt at hocc
    cases hd : doc.drop k with
    | nil =>
      rw [hd] at hocc
      have hpe : pat.isEmpty = true := by
        cases pat with
        | nil => rfl
        | cons p ps => simp [List.isPrefixOf] at hocc
      simp [indexOfCore, hpe]
    | cons c rest =>
      rw [hd] at hocc
      simp [indexOfCore, hocc]
  | succ n ih =>
    intro k hk hn
    have hki : k < i := by omega
    have hnotocc : ¬ occursAt doc pat k := hleast k hki
    unfold occursAt at hnotocc
    have hocc' := hocc
    unfold occursAt at hocc'
    cases hd : doc.drop k with
    | nil =>
      exfalso
      have : doc.drop i = [] := by
        have hsub : doc.length ≤ k := by
          by_contra hcon
          push_neg at hcon
          have : doc.drop k ≠ [] := by
            intro hnil
            have := congrArg List.length hnil
            simp only [List.length_drop, List.length_nil] at this
            omega
          exact this hd
        apply List.drop_eq_nil_of_le
        omega
      rw [this] at hocc'
      cases pat with
      | nil =>
        exact hnotocc (by rw [hd]; rfl)
      | cons p ps => simp [List.isPrefixOf] at hocc'
    | cons c rest =>
      rw [hd] at hnotocc
      simp only [indexOfCore, hd]
      rw [if_neg (by simpa using hnotocc)]
      have hrest : rest = doc.drop (k + 1) := by
        have := congrArg (List.drop 1) hd
        simpa [List.drop_drop] using this.symm
      rw [hrest]
      exact ih (k + 1) (by omega) (by omega)

/-- C9 (confirmed): whenever the cleaned selection occurs verbatim in the
document, the reconciler's exact-match stage fires: the result is the index
of the first occurrence and that index plus the cleaned text's length. -/
theorem C9_reconciler_exact_match (documentText cleanText : List Char) (i : Nat)
    (hocc : occursAt documentText cleanText i)
    (hleast : ∀ j, j < i → ¬ occursAt documentText cleanText j) :
    reconcileOffsets documentText cleanText = (i, i + cleanText.length) := by
  unfold reconcileOffsets indexOfSub
  have hfind := indexOfCore_finds documentText cleanText i hocc hleast 0 (by omega)
  rw [List.drop_zero] at hfind
  rw [hfind]

/-- Witness for C9 at the claim's example: document `"Line1\nLine2\nLine3"`,
cleaned selection `"Line2"`, first occurrence at 6, result `(6, 11)`. -/
theorem C9_reconciler_exact_match_witness :
    reconcileOffsets "Line1\nLine2\nLine3".toList "Line2".toList = (6, 11) :=
  C9_reconciler_exact_match "Line1\nLine2\nLine3".toList "Line2".toList 6
    (by decide) (by decide)
